import Mathlib

/-!
Verification of the XLS middle end against its natural-language specification.

The definitions below are shallow embeddings of the C++ source files:
  * `xls/codegen/vast.cc`       — Verilog AST emission (identifier
    sanitization, expression emission with precedence, scalar index/slice
    workaround);
  * `xls/passes/proc_state_optimization_pass.cc` — the proc-state
    optimization pass (zero-width and unobservable state removal) and the
    SDC scheduler (combinational delay constraints, LP constraint rows,
    result extraction).

Machine strings are modelled as `List Char`; machine integers as `Int`
(no overflow is reachable in the modelled code paths); the LP solver's
`double` values as `ℚ` together with explicit hypotheses that a returned
solution satisfies the constraint rows handed to the solver.
-/

namespace XLS

/-! ### `SanitizeIdentifier` (xls/codegen/vast.cc)

`absl::ascii_isdigit` / `absl::ascii_isalnum` operate on ASCII bytes only,
so we spell out the ASCII ranges rather than using Unicode-aware
`Char.isAlphanum`. -/

/-- ASCII digit test, mirroring `absl::ascii_isdigit`. -/
def asciiIsDigit (c : Char) : Bool :=
  '0' ≤ c && c ≤ '9'

/-- ASCII alphanumeric test, mirroring `absl::ascii_isalnum`. -/
def asciiIsAlnum (c : Char) : Bool :=
  ('0' ≤ c && c ≤ '9') || ('a' ≤ c && c ≤ 'z') || ('A' ≤ c && c ≤ 'Z')

/-- The per-character replacement loop body of `SanitizeIdentifier`:
any non-alphanumeric character becomes an underscore. -/
def sanitizeChar (c : Char) : Char :=
  if asciiIsAlnum c then c else '_'

/-- `SanitizeIdentifier` from `xls/codegen/vast.cc`: the empty name maps to
an underscore; a name starting with an ASCII digit is prefixed with an
underscore; every non-alphanumeric character is replaced by an
underscore. -/
def SanitizeIdentifier (name : List Char) : List Char :=
  match name with
  | [] => ['_']
  | c :: _ =>
    let sanitized := if asciiIsDigit c then '_' :: name else name
    sanitized.map sanitizeChar

/-- A character the sanitizer may emit: `[A-Za-z0-9_]`. -/
def isVerilogIdentChar (c : Char) : Bool :=
  asciiIsAlnum c || c = '_'

theorem sanitizeChar_valid (c : Char) : isVerilogIdentChar (sanitizeChar c) = true := by
  unfold sanitizeChar isVerilogIdentChar
  by_cases h : asciiIsAlnum c = true
  · simp [h]
  · simp [h]

theorem mem_sanitizeIdentifier_valid {c : Char} {s : List Char}
    (hc : c ∈ SanitizeIdentifier s) : isVerilogIdentChar c = true := by
  unfold SanitizeIdentifier at hc
  match s with
  | [] =>
    simp at hc
    subst hc
    decide
  | a :: rest =>
    simp only at hc
    rcases List.mem_map.mp hc with ⟨d, _, hd⟩
    exact hd ▸ sanitizeChar_valid d

theorem sanitizeIdentifier_ne_nil (s : List Char) : SanitizeIdentifier s ≠ [] := by
  unfold SanitizeIdentifier
  match s with
  | [] => simp
  | c :: rest =>
    by_cases h : asciiIsDigit c = true <;> simp [h]

/-- The head of the sanitized identifier is never an ASCII digit: either it
is the prepended underscore, or it is the sanitized first character which
is only kept when alphanumeric and was checked not to be a digit. -/
theorem sanitizeIdentifier_head_not_digit (s : List Char) :
    ∀ c rest, SanitizeIdentifier s = c :: rest → asciiIsDigit c = false := by
  intro c rest h
  unfold SanitizeIdentifier at h
  match s with
  | [] =>
    simp at h
    rw [← h.1]
    decide
  | a :: tail =>
    simp only at h
    by_cases hd : asciiIsDigit a = true
    · rw [if_pos hd] at h
      simp only [List.map_cons] at h
      have hc : sanitizeChar '_' = c := (List.cons_eq_cons.mp h).1
      rw [← hc]
      decide
    · rw [if_neg hd] at h
      simp only [List.map_cons] at h
      have hc : sanitizeChar a = c := (List.cons_eq_cons.mp h).1
      rw [← hc]
      unfold sanitizeChar
      by_cases ha : asciiIsAlnum a = true
      · rw [if_pos ha]
        simpa using hd
      · rw [if_neg ha]
        decide

theorem sanitizeChar_fixes_valid {c : Char} (h : isVerilogIdentChar c = true) :
    sanitizeChar c = c := by
  unfold isVerilogIdentChar at h
  unfold sanitizeChar
  by_cases ha : asciiIsAlnum c = true
  · rw [if_pos ha]
  · rw [if_neg ha]
    simp [ha] at h
    rw [h]

/-- **C9.** `SanitizeIdentifier` maps any input to a valid Verilog
identifier: the output contains only characters in `[A-Za-z0-9_]` and does
not start with an ASCII digit; the empty string maps to an underscore; an
input whose first character is a digit is prefixed with an underscore; every
non-alphanumeric character is replaced by an underscore; and the function is
deterministic (identical inputs give identical outputs). -/
theorem sanitizeIdentifier_spec (s : List Char) :
    (∀ c ∈ SanitizeIdentifier s, isVerilogIdentChar c = true) ∧
    (∀ c rest, SanitizeIdentifier s = c :: rest → asciiIsDigit c = false) ∧
    SanitizeIdentifier [] = ['_'] ∧
    (∀ a tail, s = a :: tail → asciiIsDigit a = true →
      SanitizeIdentifier s = '_' :: (a :: tail).map sanitizeChar) ∧
    (∀ a tail, s = a :: tail → asciiIsDigit a = false →
      SanitizeIdentifier s = (a :: tail).map sanitizeChar) ∧
    (∀ c, asciiIsAlnum c = false → sanitizeChar c = '_') ∧
    (∀ t : List Char, s = t → SanitizeIdentifier s = SanitizeIdentifier t) := by
  refine ⟨fun c hc => mem_sanitizeIdentifier_valid hc,
          fun c rest h => sanitizeIdentifier_head_not_digit s c rest h,
          rfl, ?_, ?_, ?_, ?_⟩
  · intro a tail hs hd
    subst hs
    unfold SanitizeIdentifier
    simp only [if_pos hd, List.map_cons]
    have : sanitizeChar '_' = '_' := by decide
    rw [this]
  · intro a tail hs hd
    subst hs
    unfold SanitizeIdentifier
    simp only [hd]
    simp
  · intro c hc
    unfold sanitizeChar
    rw [if_neg (by simp [hc])]
  · intro t ht
    rw [ht]

/-- **C10.** `SanitizeIdentifier` is idempotent: an already-sanitized
identifier passes through unchanged. -/
theorem sanitizeIdentifier_idempotent (s : List Char) :
    SanitizeIdentifier (SanitizeIdentifier s) = SanitizeIdentifier s := by
  rcases h : SanitizeIdentifier s with _ | ⟨c, rest⟩
  · exact absurd h (sanitizeIdentifier_ne_nil s)
  · have hd : asciiIsDigit c = false := sanitizeIdentifier_head_not_digit s c rest h
    unfold SanitizeIdentifier
    simp only [hd]
    simp only [Bool.false_eq_true, if_false]
    have : ∀ x ∈ c :: rest, sanitizeChar x = x := by
      intro x hx
      exact sanitizeChar_fixes_valid (mem_sanitizeIdentifier_valid (h ▸ hx))
    calc (c :: rest).map sanitizeChar = (c :: rest).map id := List.map_congr_left this
    _ = c :: rest := List.map_id _

/-! ### VAST expressions (xls/codegen/vast.cc)

The expression subtree needed by the emission claims: literals, logic
references, index, slice, unary and binary-infix operators.  Precedence
levels are assigned per operator by constructors in `vast.h` (not under
`src/`), so unary and binary nodes carry their integer precedence, and
primaries use `kMaxPrecedence`, matching `Expression::precedence()`'s
default.  `XLS_CHECK` failures abort emission without producing output; we
model emission as `Option String` with `none` for a failed check. -/

/-- `DataType`: an optional scalar width expression plus packed/unpacked
dimensions and signedness (dimension expressions restricted to literal
values, which is all the claims exercise). -/
structure VDataType where
  width : Option Nat
  packedDims : List Nat
  unpackedDims : List Nat
  isSigned : Bool
  deriving DecidableEq

/-- Modelled from the spec: `DataType::IsScalar` is declared in `vast.h`,
which is not among the source files.  Per the spec ("A width expression of
`1` with no packed dims is a scalar") and the emitter comments ("If subject
is scalar (no width given in declaration)"), a type is scalar when it has no
width expression and no packed dimensions. -/
def VDataType.IsScalar (t : VDataType) : Bool :=
  t.width == none && t.packedDims == []

/-- Expression precedence of primaries, `Expression::kMaxPrecedence`. -/
def kMaxPrecedence : Nat := 13

/-- The expression AST kinds exercised by the emission claims. -/
inductive VExpr where
  | literal (value : Nat) (width : Nat)
  | logicRef (name : String) (type : VDataType)
  | index (subject : VExpr) (idx : VExpr)
  | slice (subject : VExpr) (hi : VExpr) (lo : VExpr)
  | unary (op : String) (prec : Nat) (isReductionOp : Bool) (arg : VExpr)
  | binaryInfix (op : String) (prec : Nat) (lhs : VExpr) (rhs : VExpr)
  deriving DecidableEq

/-- `Expression::precedence()`: primaries are `kMaxPrecedence`; operators
carry the precedence their `vast.h` constructor assigned. -/
def VExpr.precedence : VExpr → Nat
  | .literal _ _ => kMaxPrecedence
  | .logicRef _ _ => kMaxPrecedence
  | .index _ _ => kMaxPrecedence
  | .slice _ _ _ => kMaxPrecedence
  | .unary _ p _ _ => p
  | .binaryInfix _ p _ _ => p

/-- `Expression::IsUnary()`. -/
def VExpr.isUnary : VExpr → Bool
  | .unary _ _ _ _ => true
  | _ => false

/-- `e->IsUnary() && e->AsUnaryOrDie()->IsReduction()` from
`BinaryInfix::Emit`. -/
def VExpr.isUnaryReduction : VExpr → Bool
  | .unary _ _ r _ => r
  | _ => false

/-- `Literal::IsLiteralWithValue` (vast.cc): true when the expression is a
literal holding exactly the target value.  VAST literals are unsigned, so
the target is a `Nat` here. -/
def IsLiteralWithValue : VExpr → Nat → Bool
  | .literal v _, target => v == target
  | _, _ => false

/-- `IsScalarLogicRef` (vast.cc): the subject is a reference whose declared
data type is scalar. -/
def IsScalarLogicRef : VExpr → Bool
  | .logicRef _ ty => ty.IsScalar
  | _ => false

/-- `ParenWrap` (vast.cc). -/
def parenWrap (s : String) : String := "(" ++ s ++ ")"

/-- Emission of the modelled expression kinds, following `Literal::Emit`
(default format), `LogicRef::Emit` (emits the referenced name; its body
lives in `vast.h`), `Index::Emit`, `Slice::Emit`, `Unary::Emit` and
`BinaryInfix::Emit` from vast.cc.  A failed `XLS_CHECK` is `none`. -/
def VExpr.emit : VExpr → Option String
  | .literal v _ => some (toString v)
  | .logicRef n _ => some n
  | .index subj idx =>
    if IsScalarLogicRef subj then
      -- Scalar subject: elide the indexing; XLS_CHECK(index is literal 0).
      if IsLiteralWithValue idx 0 then subj.emit else none
    else do
      let s ← subj.emit
      let i ← idx.emit
      some (s ++ "[" ++ i ++ "]")
  | .slice subj hi lo =>
    if IsScalarLogicRef subj then
      -- Scalar subject: elide the slice; XLS_CHECK(hi, lo are literal 0).
      if IsLiteralWithValue hi 0 && IsLiteralWithValue lo 0 then subj.emit
      else none
    else do
      let s ← subj.emit
      let h ← hi.emit
      let l ← lo.emit
      some (s ++ "[" ++ h ++ ":" ++ l ++ "]")
  | .unary op p _ arg => do
    let a ← arg.emit
    some (op ++ (if arg.precedence < p || arg.isUnary then parenWrap a else a))
  | .binaryInfix op p lhs rhs => do
    let ls ← lhs.emit
    let rs ← rhs.emit
    some ((if lhs.precedence < p || lhs.isUnaryReduction then parenWrap ls
           else ls)
          ++ " " ++ op ++ " "
          ++ (if rhs.precedence ≤ p || rhs.isUnaryReduction then parenWrap rs
              else rs))

/-- **C7.** For a reference of scalar declared type, emitting an index (or a
slice with both bounds) equal to the literal 0 produces exactly the
subject's emission with the indexing elided, and any other index makes
emission fail (the `XLS_CHECK` in `Index::Emit` aborts) instead of
producing output. -/
theorem scalar_index_slice_workaround (name : String) (ty : VDataType)
    (hty : ty.IsScalar = true) (idx hi lo : VExpr) :
    let r := VExpr.logicRef name ty
    (IsLiteralWithValue idx 0 = true → (VExpr.index r idx).emit = r.emit) ∧
    (IsLiteralWithValue hi 0 = true → IsLiteralWithValue lo 0 = true →
      (VExpr.slice r hi lo).emit = r.emit) ∧
    (IsLiteralWithValue idx 0 = false → (VExpr.index r idx).emit = none) := by
  intro r
  have hscalar : IsScalarLogicRef r = true := by
    simp [IsScalarLogicRef, r, hty]
  refine ⟨?_, ?_, ?_⟩
  · intro h0
    simp [VExpr.emit, hscalar, h0]
  · intro hh hl
    simp [VExpr.emit, hscalar, hh, hl]
  · intro h0
    simp [VExpr.emit, hscalar, h0]

theorem scalar_index_slice_workaround_witness :
    (VExpr.index (VExpr.logicRef "r" ⟨none, [], [], false⟩)
      (VExpr.literal 1 32)).emit = none :=
  (scalar_index_slice_workaround "r" ⟨none, [], [], false⟩ (by decide)
    (VExpr.literal 1 32) (VExpr.literal 0 32) (VExpr.literal 0 32)).2.2
    (by decide)

/-- **C8.** In `BinaryInfix::Emit` the left operand is parenthesized iff its
precedence is strictly less than the operator's or it is a unary reduction;
the right operand iff its precedence is less than or equal or it is a unary
reduction; and in `Unary::Emit` the operand is parenthesized iff its
precedence is strictly less or it is itself a unary. -/
theorem binary_unary_parenthesization (bop uop : String) (bp up : Nat)
    (lhs rhs arg : VExpr) (red : Bool) (ls rs as : String)
    (hl : lhs.emit = some ls) (hr : rhs.emit = some rs)
    (ha : arg.emit = some as) :
    (VExpr.binaryInfix bop bp lhs rhs).emit =
      some ((if lhs.precedence < bp ∨ lhs.isUnaryReduction then parenWrap ls
             else ls)
            ++ " " ++ bop ++ " "
            ++ (if rhs.precedence ≤ bp ∨ rhs.isUnaryReduction then parenWrap rs
                else rs)) ∧
    (VExpr.unary uop up red arg).emit =
      some (uop ++ if arg.precedence < up ∨ arg.isUnary then parenWrap as
                   else as) := by
  constructor
  · simp only [VExpr.emit, hl, hr, Option.bind_eq_bind, Option.some_bind]
    congr 2
    · rcases Nat.lt_or_ge lhs.precedence bp with h | h
      · simp [h]
      · simp [Nat.not_lt.mpr h, h]
    · rcases Nat.lt_or_ge bp rhs.precedence with h | h
      · simp [Nat.not_le.mpr h, Nat.not_lt.mpr h]
      · simp [h, Nat.le_of_lt]
  · simp only [VExpr.emit, ha, Option.bind_eq_bind, Option.some_bind]
    congr 1
    rcases Nat.lt_or_ge arg.precedence up with h | h
    · simp [h]
    · simp [Nat.not_lt.mpr h]

theorem binary_unary_parenthesization_witness :
    (VExpr.binaryInfix "+" 9 (VExpr.literal 1 32) (VExpr.literal 2 32)).emit =
      some ((if (VExpr.literal 1 32).precedence < 9 ∨
                (VExpr.literal 1 32).isUnaryReduction
             then parenWrap "1" else "1")
            ++ " " ++ "+" ++ " "
            ++ (if (VExpr.literal 2 32).precedence ≤ 9 ∨
                   (VExpr.literal 2 32).isUnaryReduction
                then parenWrap "2" else "2")) ∧
    (VExpr.unary "-" 12 false (VExpr.literal 3 32)).emit =
      some ("-" ++ if (VExpr.literal 3 32).precedence < 12 ∨
                      (VExpr.literal 3 32).isUnary
                   then parenWrap "3" else "3") :=
  binary_unary_parenthesization "+" "-" 9 12 (VExpr.literal 1 32)
    (VExpr.literal 2 32) (VExpr.literal 3 32) false "1" "2" "3" rfl rfl rfl

/-! ### `ComputeCombinationalDelayConstraints` (sdc_scheduler.cc)

The function computes all-pairs critical-path distances over the nodes of a
`FunctionBase` in topological order and, while updating the running maximum
for `distances[i]`, records a one-cycle separation constraint whenever the
current node's delay makes the critical path cross the clock period.

In the C++ the outer loop runs over the operands and the inner loop over
the source index `i`; the two loops are independent across `i`, so the
embedding computes each index's distance and push decision pointwise with
the same per-operand recurrence.  `result[a]` may receive the same node
twice in the C++ (`push_back` on every crossing update); the embedding
appends a node at most once per processed node, which preserves
membership. -/

/-- A node of a `FunctionBase`: stable id and ordered operand ids. -/
structure DNode where
  id : Nat
  operands : List Nat
  deriving DecidableEq

/-- `node_to_index`: position of a node id in the `f->nodes()` iteration
order. -/
def nodeIndex (nodes : List DNode) (x : Nat) : Nat :=
  (nodes.map DNode.id).indexOf x

/-- One iteration of `if (operand_distance != -1) if (distances[i] <
operand_distance + node_delay) distances[i] = ...` at a fixed index. -/
def innerStep (d x r : Int) : Int :=
  if x ≠ -1 ∧ r < x + d then x + d else r

/-- The running maximum over the operand distances at a fixed index. -/
def innerFold (d : Int) (xs : List Int) (r : Int) : Int :=
  match xs with
  | [] => r
  | x :: rest => innerFold d rest (innerStep d x r)

/-- Whether some operand iteration at a fixed index performed the strict
update and crossed the clock-period boundary (`operand_distance <=
clock_period_ps && operand_distance + node_delay > clock_period_ps`),
i.e. pushed the current node into `result[index_to_node[i]]`. -/
def innerPushed (d clock : Int) (xs : List Int) (r : Int) : Bool :=
  match xs with
  | [] => false
  | x :: rest =>
    (decide (x ≠ -1 ∧ r < x + d ∧ x ≤ clock ∧ clock < x + d)) ||
      innerPushed d clock rest (innerStep d x r)

/-- The evolving state: `dist m i` is `distances_to_node[m][i]` (−1 when
absent), `res i` is `result[index_to_node[i]]`. -/
structure DelayState where
  dist : Nat → Nat → Int
  res : Nat → List Nat

/-- The distance vector computed in the operand loop for node `n`. -/
def nodeDist (delayMap : Nat → Int) (s : DelayState) (n : DNode) (i : Nat) :
    Int :=
  innerFold (delayMap n.id) (n.operands.map (fun op => s.dist op i)) (-1)

/-- Whether processing node `n` pushes it into `result` at index `i`. -/
def nodePushed (delayMap : Nat → Int) (clock : Int) (s : DelayState)
    (n : DNode) (i : Nat) : Bool :=
  innerPushed (delayMap n.id) clock (n.operands.map (fun op => s.dist op i))
    (-1)

/-- Processing one node of the topological order: run the operand loop,
then set `distances[node_index] = node_delay` and store the vector. -/
def delayStep (nodes : List DNode) (delayMap : Nat → Int) (clock : Int)
    (s : DelayState) (n : DNode) : DelayState where
  dist m i :=
    if m = n.id then
      if i = nodeIndex nodes n.id then delayMap n.id else nodeDist delayMap s n i
    else s.dist m i
  res i :=
    s.res i ++
      (if i < nodes.length ∧ nodePushed delayMap clock s n i then [n.id]
       else [])

/-- `ComputeCombinationalDelayConstraints` from sdc_scheduler.cc:
fold the per-node computation over the topological order, starting from
empty distances and empty constraint vectors. -/
def ComputeCombinationalDelayConstraints (nodes topo : List DNode)
    (delayMap : Nat → Int) (clock : Int) : DelayState :=
  topo.foldl (delayStep nodes delayMap clock) ⟨fun _ _ => -1, fun _ => []⟩

theorem innerStep_ge (d x r : Int) : r ≤ innerStep d x r := by
  unfold innerStep
  by_cases h : x ≠ -1 ∧ r < x + d
  · rw [if_pos h]; exact le_of_lt h.2
  · rw [if_neg h]

theorem innerFold_ge (d : Int) (xs : List Int) (r : Int) :
    r ≤ innerFold d xs r := by
  induction xs generalizing r with
  | nil => exact le_refl r
  | cons x rest ih =>
    exact le_trans (innerStep_ge d x r) (ih (innerStep d x r))

theorem innerPushed_of_final (d clock : Int) (xs : List Int) (r v : Int)
    (hfold : innerFold d xs r = v) (hrv : r < v) (hclk : clock < v)
    (hlo : v - d ≤ clock) : innerPushed d clock xs r = true := by
  induction xs generalizing r with
  | nil =>
    exact absurd (hfold ▸ hrv) (lt_irrefl v)
  | cons x rest ih =>
    unfold innerFold at hfold
    unfold innerPushed
    by_cases hc : x ≠ -1 ∧ r < x + d
    · by_cases hv : x + d = v
      · have hx : x ≤ clock := by omega
        have hxd : clock < x + d := hv ▸ hclk
        simp [hc.1, hc.2, hx, hxd]
      · have hlt : innerStep d x r < v := by
          have hge : innerStep d x r ≤ v := hfold ▸ innerFold_ge d rest _
          have : innerStep d x r = x + d := by unfold innerStep; rw [if_pos hc]
          omega
        rw [ih _ hfold hlt]
        simp
    · have hstep : innerStep d x r = r := by unfold innerStep; rw [if_neg hc]
      rw [hstep] at hfold
      rw [hstep, ih r hfold hrv]
      simp

theorem final_gt_of_innerPushed (d clock : Int) (xs : List Int) (r : Int)
    (h : innerPushed d clock xs r = true) : clock < innerFold d xs r := by
  induction xs generalizing r with
  | nil => exact absurd h (by simp [innerPushed])
  | cons x rest ih =>
    unfold innerPushed at h
    rcases Bool.or_eq_true_iff.mp h with h1 | h2
    · have hc := of_decide_eq_true h1
      have hstep : innerStep d x r = x + d := by
        unfold innerStep; rw [if_pos ⟨hc.1, hc.2.1⟩]
      have : innerStep d x r ≤ innerFold d rest (innerStep d x r) :=
        innerFold_ge d rest _
      unfold innerFold
      omega
    · exact ih _ h2

theorem delayFold_dist_preserve (nodes : List DNode) (delayMap : Nat → Int)
    (clock : Int) (ts : List DNode) (s : DelayState) (m : Nat)
    (hm : ∀ t ∈ ts, t.id ≠ m) :
    (ts.foldl (delayStep nodes delayMap clock) s).dist m = s.dist m := by
  induction ts generalizing s with
  | nil => rfl
  | cons t rest ih =>
    rw [List.foldl_cons]
    rw [ih _ (fun u hu => hm u (List.mem_cons_of_mem t hu))]
    funext i
    unfold delayStep
    simp only
    rw [if_neg (fun (he : m = t.id) => hm t (List.mem_cons_self t rest) he.symm)]

theorem delayFold_res_mem (nodes : List DNode) (delayMap : Nat → Int)
    (clock : Int) (ts : List DNode) (s : DelayState) (x i : Nat)
    (hx : ∀ t ∈ ts, t.id ≠ x) :
    (x ∈ (ts.foldl (delayStep nodes delayMap clock) s).res i ↔ x ∈ s.res i) := by
  induction ts generalizing s with
  | nil => exact Iff.rfl
  | cons t rest ih =>
    rw [List.foldl_cons]
    rw [ih _ (fun u hu => hx u (List.mem_cons_of_mem t hu))]
    unfold delayStep
    simp only [List.mem_append]
    constructor
    · rintro (h | h)
      · exact h
      · exfalso
        by_cases hc : i < nodes.length ∧ nodePushed delayMap clock s t i
        · rw [if_pos hc] at h
          exact hx t (List.mem_cons_self t rest) (List.mem_singleton.mp h).symm
        · rw [if_neg hc] at h
          exact absurd h (List.not_mem_nil x)
    · exact fun h => Or.inl h

/-- **C2 (amended).** Writing `d(a,b)` for the critical-path distance the
algorithm stores (`distances_to_node[b][index of a]`), a one-cycle
separation constraint (`b` in the result vector for `a`) is produced
whenever `d(a,b) > clock_period_ps` and `d(a,b) − delay(b) ≤
clock_period_ps`; conversely every produced constraint satisfies `d(a,b) >
clock_period_ps` — but not necessarily `d(a,b) − delay(b) ≤
clock_period_ps`, because the push happens at any strict update of the
running maximum that crosses the clock boundary, which depends on operand
order (see the counterexample). -/
theorem computeCombinationalDelayConstraints_membership
    (nodes topo : List DNode) (delayMap : Nat → Int) (clock : Int)
    (a b : DNode) (hclock : 0 ≤ clock)
    (ha : a ∈ nodes) (hb : b ∈ nodes) (hbt : b ∈ topo)
    (hnodup : (topo.map DNode.id).Nodup) (hab : a.id ≠ b.id) :
    (clock < (ComputeCombinationalDelayConstraints nodes topo delayMap
        clock).dist b.id (nodeIndex nodes a.id) →
      (ComputeCombinationalDelayConstraints nodes topo delayMap clock).dist
          b.id (nodeIndex nodes a.id) - delayMap b.id ≤ clock →
      b.id ∈ (ComputeCombinationalDelayConstraints nodes topo delayMap
        clock).res (nodeIndex nodes a.id)) ∧
    (b.id ∈ (ComputeCombinationalDelayConstraints nodes topo delayMap
        clock).res (nodeIndex nodes a.id) →
      clock < (ComputeCombinationalDelayConstraints nodes topo delayMap
        clock).dist b.id (nodeIndex nodes a.id)) := by
  obtain ⟨t1, t2, rfl⟩ := List.append_of_mem hbt
  have hids : (t1.map DNode.id ++ b.id :: t2.map DNode.id).Nodup := by
    simpa using hnodup
  have hnot1 : ∀ t ∈ t1, t.id ≠ b.id := by
    intro t ht he
    have hmem : b.id ∈ t1.map DNode.id := he ▸ List.mem_map_of_mem DNode.id ht
    have := (List.nodup_append.mp hids).2.2
    exact this hmem (List.mem_cons_self _ _)
  have hnot2 : ∀ t ∈ t2, t.id ≠ b.id := by
    intro t ht he
    have hmem : b.id ∈ t2.map DNode.id := he ▸ List.mem_map_of_mem DNode.id ht
    have hcons : (b.id :: t2.map DNode.id).Nodup := (List.nodup_append.mp hids).2.1
    exact (List.nodup_cons.mp hcons).1 hmem
  set i := nodeIndex nodes a.id with hi
  set s0 : DelayState := ⟨fun _ _ => -1, fun _ => []⟩ with hs0
  set s1 := t1.foldl (delayStep nodes delayMap clock) s0 with hs1
  set s2 := delayStep nodes delayMap clock s1 b with hs2
  have hrun : ComputeCombinationalDelayConstraints nodes (t1 ++ b :: t2)
      delayMap clock = t2.foldl (delayStep nodes delayMap clock) s2 := by
    unfold ComputeCombinationalDelayConstraints
    rw [List.foldl_append, List.foldl_cons]
  have hine : i ≠ nodeIndex nodes b.id := by
    intro he
    have hamem : a.id ∈ nodes.map DNode.id := List.mem_map_of_mem DNode.id ha
    have hbmem : b.id ∈ nodes.map DNode.id := List.mem_map_of_mem DNode.id hb
    exact hab ((List.indexOf_inj hamem hbmem).mp he)
  have hilen : i < nodes.length := by
    rw [hi]
    have hamem : a.id ∈ nodes.map DNode.id := List.mem_map_of_mem DNode.id ha
    have := List.indexOf_lt_length.mpr hamem
    simpa using this
  have hdist : (t2.foldl (delayStep nodes delayMap clock) s2).dist b.id i =
      nodeDist delayMap s1 b i := by
    rw [delayFold_dist_preserve nodes delayMap clock t2 s2 b.id hnot2]
    show (delayStep nodes delayMap clock s1 b).dist b.id i = _
    unfold delayStep
    simp [hine]
  have hmem : b.id ∈ (t2.foldl (delayStep nodes delayMap clock) s2).res i ↔
      nodePushed delayMap clock s1 b i = true := by
    rw [delayFold_res_mem nodes delayMap clock t2 s2 b.id i hnot2]
    show b.id ∈ (delayStep nodes delayMap clock s1 b).res i ↔ _
    unfold delayStep
    simp only [List.mem_append]
    rw [delayFold_res_mem nodes delayMap clock t1 s0 b.id i hnot1]
    constructor
    · rintro (h | h)
      · exact absurd h (List.not_mem_nil b.id)
      · by_cases hc : i < nodes.length ∧ nodePushed delayMap clock s1 b i
        · exact hc.2
        · rw [if_neg hc] at h
          exact absurd h (List.not_mem_nil b.id)
    · intro h
      exact Or.inr (by rw [if_pos ⟨hilen, h⟩]; exact List.mem_singleton.mpr rfl)
  rw [hrun, hdist, hmem]
  constructor
  · intro hgt hle
    unfold nodeDist at hgt hle
    unfold nodePushed
    exact innerPushed_of_final (delayMap b.id) clock _ (-1) _ rfl (by omega)
      hgt hle
  · intro h
    unfold nodePushed at h
    unfold nodeDist
    exact final_gt_of_innerPushed (delayMap b.id) clock _ (-1) h

/-- The concrete four-node function used to refute the claim as stated:
`a = node 0` (delay 300), two intermediate nodes `1` (delay 500) and `2`
(delay 900) both reading node 0, and `b = node 3` (delay 300) reading
nodes 1 and 2 in that order; clock period 1000 ps. -/
def c2nodes : List DNode := [⟨0, []⟩, ⟨1, [0]⟩, ⟨2, [0]⟩, ⟨3, [1, 2]⟩]

/-- Delay map for the C2 counterexample. -/
def c2delay : Nat → Int := fun n =>
  if n = 0 then 300 else if n = 1 then 500 else if n = 2 then 900 else 300

/-- **C2 counterexample.** In the concrete instance the constraint `(0, 3)`
is produced (node 3 appears in the result vector of node 0) although
`d(0,3) = 1500` and `d(0,3) − delay(3) = 1200 > 1000 = clock_period_ps`,
refuting the claimed "only if" of C2: the push for index 0 happened at the
earlier operand (distance 800, crossing to 1100), not at the final maximum. -/
theorem c2_counterexample :
    3 ∈ (ComputeCombinationalDelayConstraints c2nodes c2nodes c2delay
          1000).res (nodeIndex c2nodes 0) ∧
    (ComputeCombinationalDelayConstraints c2nodes c2nodes c2delay 1000).dist
        3 (nodeIndex c2nodes 0) = 1500 ∧
    ¬((ComputeCombinationalDelayConstraints c2nodes c2nodes c2delay
          1000).dist 3 (nodeIndex c2nodes 0) - c2delay 3 ≤ 1000) := by
  refine ⟨?_, by decide, by decide⟩
  decide

theorem computeCombinationalDelayConstraints_membership_witness :
    1000 < (ComputeCombinationalDelayConstraints c2nodes c2nodes c2delay
        1000).dist (DNode.mk 3 [1, 2]).id (nodeIndex c2nodes (DNode.mk 0 []).id) :=
  (computeCombinationalDelayConstraints_membership c2nodes c2nodes c2delay
      1000 (DNode.mk 0 []) (DNode.mk 3 [1, 2]) (by decide) (by decide)
      (by decide) (by decide) (by decide) (by decide)).2 (by decide)

/-! ### SDC scheduler (sdc_scheduler.cc)

`SDCScheduler` builds a linear program: one cycle variable and one lifetime
variable per node plus a sink variable, row constraints for scheduling
constraints, def-use (causal + lifetime) edges and timing, then calls the
external GLOP solver and rounds the solution.  The LP rows are embedded as
data (`LinRow`); the external solver is abstracted by its availability, a
result status and a candidate solution `SVar → ℚ` (GLOP's doubles are
modelled as rationals), with the solver contract — an `OPTIMAL` solution
satisfies every row handed to the solver — taken as a hypothesis. -/

/-- The LP variables of `ConstraintBuilder`. -/
inductive SVar where
  | cycle (n : Nat)
  | lifetime (n : Nat)
  | sink
  deriving DecidableEq

/-- One solver row (`MakeRowConstraint(lb, ub)` plus `SetCoefficient`
calls); `none` stands for ∓infinity.  Variable bounds from `MakeNumVar`
are modelled as single-variable rows. -/
structure LinRow where
  lb : Option ℚ
  ub : Option ℚ
  terms : List (SVar × ℚ)

/-- The value of a row's linear combination under a solution. -/
def rowValue (sol : SVar → ℚ) (r : LinRow) : ℚ :=
  (r.terms.map (fun t => t.2 * sol t.1)).sum

/-- A solution meets an optional lower bound (`none` = −infinity). -/
def SatLB : Option ℚ → ℚ → Prop
  | none, _ => True
  | some l, v => l ≤ v

/-- A solution meets an optional upper bound (`none` = +infinity). -/
def SatUB : Option ℚ → ℚ → Prop
  | none, _ => True
  | some u, v => v ≤ u

/-- The solution satisfies the row: its linear combination lies within the
row's bounds. -/
def SatRow (sol : SVar → ℚ) (r : LinRow) : Prop :=
  SatLB r.lb (rowValue sol r) ∧ SatUB r.ub (rowValue sol r)

instance (b : Option ℚ) (v : ℚ) : Decidable (SatLB b v) := by
  unfold SatLB
  match b with
  | none => exact inferInstanceAs (Decidable True)
  | some l => exact inferInstanceAs (Decidable (l ≤ v))

instance (b : Option ℚ) (v : ℚ) : Decidable (SatUB b v) := by
  unfold SatUB
  match b with
  | none => exact inferInstanceAs (Decidable True)
  | some u => exact inferInstanceAs (Decidable (v ≤ u))

instance (sol : SVar → ℚ) (r : LinRow) : Decidable (SatRow sol r) :=
  inferInstanceAs (Decidable (_ ∧ _))

/-- Node kinds the scheduler claims distinguish (`Is<Receive>()`,
`Is<Send>()`). -/
inductive NodeKind where
  | receive
  | send
  | other
  deriving DecidableEq

/-- A scheduler-level node: id, kind, channel name for send/receive,
bit count of its type, and operand ids (for the timing constraints). -/
structure SNode where
  id : Nat
  kind : NodeKind
  channel : Option String
  bits : Nat
  operands : List Nat
  deriving DecidableEq

/-- A `FunctionBase` as the scheduler sees it: nodes in iteration order,
the user lists and `HasImplicitUse`. -/
structure SFun where
  nodes : List SNode
  users : Nat → List Nat
  implicitUse : Nat → Bool

/-- The variable standing for a use: the user's cycle variable, or the
sink variable for an implicit use. -/
def userVar : Option Nat → SVar
  | some u => SVar.cycle u
  | none => SVar.sink

/-- `AddCausalConstraint`: `cycle[node] − cycle[user] ≤ 0`. -/
def causalRow (n : Nat) (user : Option Nat) : LinRow :=
  ⟨none, some 0, [(SVar.cycle n, 1), (userVar user, -1)]⟩

/-- `AddLifetimeConstraint`: `cycle[user] − cycle[node] − lifetime[node] ≤
0`. -/
def lifetimeRow (n : Nat) (user : Option Nat) : LinRow :=
  ⟨none, some 0, [(userVar user, 1), (SVar.cycle n, -1), (SVar.lifetime n, -1)]⟩

/-- The def-use rows added by the `SDCScheduler` loop over
`node->users()` plus `HasImplicitUse`. -/
def defUseRows (f : SFun) : List LinRow :=
  f.nodes.flatMap (fun n =>
    (f.users n.id).flatMap
      (fun u => [causalRow n.id (some u), lifetimeRow n.id (some u)]) ++
    (if f.implicitUse n.id then [causalRow n.id none, lifetimeRow n.id none]
     else []))

/-- `IODirection` of `IOConstraint`. -/
inductive IODirection where
  | kSend
  | kReceive
  deriving DecidableEq

/-- The scheduling constraints `SDCScheduler` accepts. -/
inductive SchedulingConstraint where
  | io (sourceChannel targetChannel : String) (sourceDirection targetDirection : IODirection)
      (minLatency maxLatency : Int)
  | recvsFirstSendsLast
  deriving DecidableEq

/-- `node_matches_direction` from `AddIOConstraint`. -/
def nodeMatchesDirection (n : SNode) (dir : IODirection) : Bool :=
  (n.kind == .send && dir == .kSend) ||
    (n.kind == .receive && dir == .kReceive)

/-- The nodes in `channel_to_nodes[name]`: send/receive nodes on the named
channel, in node iteration order. -/
def channelNodes (f : SFun) (name : String) : List SNode :=
  f.nodes.filter (fun n =>
    (n.kind == .receive || n.kind == .send) && n.channel == some name)

/-- `AddIOConstraint`: for every matching source/target pair on the
constraint's channels, `min_latency ≤ cycle[target] − cycle[source] ≤
max_latency` as two rows, skipping `source == target`. -/
def ioRows (f : SFun) (srcCh tgtCh : String) (srcDir tgtDir : IODirection)
    (minLat maxLat : Int) : List LinRow :=
  (channelNodes f srcCh).flatMap (fun s =>
    (channelNodes f tgtCh).flatMap (fun t =>
      if nodeMatchesDirection s srcDir && nodeMatchesDirection t tgtDir &&
          s != t then
        [⟨none, some (-(minLat : ℚ)), [(SVar.cycle s.id, 1), (SVar.cycle t.id, -1)]⟩,
         ⟨none, some ((maxLat : ℚ)), [(SVar.cycle t.id, 1), (SVar.cycle s.id, -1)]⟩]
      else []))

/-- `AddRFSLConstraint`: every receive gets `cycle[node] ≤ 0`; every send
gets `−cycle[node] ≤ −(pipeline_length − 1)`. -/
def rfslRows (f : SFun) (pipelineLength : Int) : List LinRow :=
  f.nodes.flatMap (fun n =>
    (if n.kind == .receive then [⟨none, some 0, [(SVar.cycle n.id, 1)]⟩]
     else []) ++
    (if n.kind == .send then
      [⟨none, some (-((pipelineLength - 1 : Int) : ℚ)), [(SVar.cycle n.id, -1)]⟩]
     else []))

/-- `AddSchedulingConstraint` dispatch. -/
def schedulingConstraintRows (f : SFun) (pipelineLength : Int) :
    SchedulingConstraint → List LinRow
  | .io s t sd td mn mx => ioRows f s t sd td mn mx
  | .recvsFirstSendsLast => rfslRows f pipelineLength

/-- The `DNode` view of a scheduler node, for the timing computation. -/
def SNode.toDNode (n : SNode) : DNode := ⟨n.id, n.operands⟩

/-- `AddTimingConstraints`: one row `1 ≤ cycle[target] − cycle[source]` per
pair produced by `ComputeCombinationalDelayConstraints`. -/
def timingRows (f : SFun) (topo : List DNode) (delayMap : Nat → Int)
    (clock : Int) : List LinRow :=
  let dn := f.nodes.map SNode.toDNode
  f.nodes.flatMap (fun s =>
    ((ComputeCombinationalDelayConstraints dn topo delayMap clock).res
        (nodeIndex dn s.id)).map
      (fun t => ⟨some 1, none, [(SVar.cycle t, 1), (SVar.cycle s.id, -1)]⟩))

/-- The variable bounds from the `ConstraintBuilder` constructor:
`MakeNumVar(bounds.lb(node), bounds.ub(node))` for cycles and
`MakeNumVar(0, ∞)` for lifetimes (the sink is unbounded). -/
def boundRows (f : SFun) (lb ub : Nat → ℚ) : List LinRow :=
  f.nodes.flatMap (fun n =>
    [⟨some (lb n.id), some (ub n.id), [(SVar.cycle n.id, 1)]⟩,
     ⟨some 0, none, [(SVar.lifetime n.id, 1)]⟩])

/-- All rows of the LP that `SDCScheduler` hands to the solver, in the
order the source adds them: scheduling constraints, def-use edges, timing,
plus the variable bounds fixed at construction. -/
def sdcRows (f : SFun) (topo : List DNode) (pipelineLength : Int)
    (clock : Int) (delayMap : Nat → Int) (lb ub : Nat → ℚ)
    (constraints : List SchedulingConstraint) : List LinRow :=
  constraints.flatMap (schedulingConstraintRows f pipelineLength) ++
    defUseRows f ++ timingRows f topo delayMap clock ++ boundRows f lb ub

/-- The `absl::Status` codes the scheduler's failure paths use. -/
inductive StatusCode where
  | ok
  | unavailable
  | internal
  deriving DecidableEq

/-- An `absl::Status` as a code plus message. -/
structure AbslStatus where
  code : StatusCode
  message : String
  deriving DecidableEq

/-- `absl::UnavailableError("GLOP solver unavailable.")`. -/
def solverUnavailableStatus : AbslStatus :=
  ⟨.unavailable, "GLOP solver unavailable."⟩

/-- `absl::InternalError("The problem does not have an optimal solution")`,
returned for every non-`OPTIMAL` solver status. -/
def notOptimalStatus : AbslStatus :=
  ⟨.internal, "The problem does not have an optimal solution"⟩

/-- `absl::InternalError("The scheduling result is expected to be
integer")` from `ExtractResult`. -/
def nonIntegerStatus : AbslStatus :=
  ⟨.internal, "The scheduling result is expected to be integer"⟩

/-- `or_tools::MPSolver::ResultStatus`. -/
inductive MPResultStatus where
  | optimal
  | feasible
  | infeasible
  | unbounded
  | abnormal
  | notSolved
  deriving DecidableEq

/-- `ConstraintBuilder::ExtractResult`: error unless every cycle value is
within 0.001 of an integer, else the rounded cycle map (an association
list keyed by node id). -/
def ExtractResult (f : SFun) (sol : SVar → ℚ) :
    Except AbslStatus (List (Nat × Int)) :=
  if f.nodes.all (fun n =>
      decide (|sol (SVar.cycle n.id) - ((round (sol (SVar.cycle n.id)) : Int) : ℚ)| ≤ 1 / 1000))
  then .ok (f.nodes.map (fun n => (n.id, round (sol (SVar.cycle n.id)))))
  else .error nonIntegerStatus

/-- `SDCScheduler`'s control flow around the external solver: fail if GLOP
is unavailable, fail with the fixed internal error on any non-`OPTIMAL`
solve, otherwise extract the rounded solution. -/
def SDCScheduler (solverAvailable : Bool) (solveStatus : MPResultStatus)
    (f : SFun) (sol : SVar → ℚ) : Except AbslStatus (List (Nat × Int)) :=
  if solverAvailable = false then .error solverUnavailableStatus
  else if solveStatus = .optimal then ExtractResult f sol
  else .error notOptimalStatus

theorem round_mono_rat {x y : ℚ} (h : x ≤ y) : round x ≤ round y := by
  rw [round_eq, round_eq]
  exact Int.floor_le_floor (by linarith)

theorem lookup_round_map (l : List SNode) (g : Nat → Int) (x : Nat) (c : Int)
    (h : (l.map (fun n => (n.id, g n.id))).lookup x = some c) : c = g x := by
  induction l with
  | nil => simp [List.lookup] at h
  | cons n rest ih =>
    rw [List.map_cons, List.lookup_cons] at h
    cases hbe : (x == n.id)
    · simp only [hbe] at h
      exact ih h
    · simp only [hbe] at h
      rw [beq_iff_eq.mp hbe]
      exact (Option.some_inj.mp h).symm

theorem mem_lookup_round_map (l : List SNode) (g : Nat → Int) (n : SNode)
    (hn : n ∈ l) :
    (l.map (fun m => (m.id, g m.id))).lookup n.id = some (g n.id) := by
  induction l with
  | nil => exact absurd hn (List.not_mem_nil n)
  | cons a rest ih =>
    rw [List.map_cons, List.lookup_cons]
    cases hbe : (n.id == a.id)
    · simp only [hbe]
      have hne : ¬n.id = a.id := by simpa using hbe
      rcases List.mem_cons.mp hn with h | h
      · exact absurd (h ▸ rfl) hne
      · exact ih h
    · simp only [hbe]
      rw [beq_iff_eq.mp hbe]

/-- If `SDCScheduler` returned a cycle map, it is the rounded solution. -/
theorem sdcScheduler_ok (avail : Bool) (st : MPResultStatus) (f : SFun)
    (sol : SVar → ℚ) (m : List (Nat × Int))
    (hok : SDCScheduler avail st f sol = .ok m) :
    m = f.nodes.map (fun n => (n.id, round (sol (SVar.cycle n.id)))) := by
  unfold SDCScheduler at hok
  by_cases ha : avail = false
  · rw [if_pos ha] at hok
    exact absurd hok (by simp)
  · rw [if_neg ha] at hok
    by_cases hs : st = .optimal
    · rw [if_pos hs] at hok
      unfold ExtractResult at hok
      by_cases hall : f.nodes.all (fun n =>
          decide (|sol (SVar.cycle n.id) -
            ((round (sol (SVar.cycle n.id)) : Int) : ℚ)| ≤ 1 / 1000)) = true
      · rw [if_pos hall] at hok
        cases hok
        rfl
      · rw [if_neg hall] at hok
        exact absurd hok (by simp)
    · rw [if_neg hs] at hok
      exact absurd hok (by simp)

theorem causalRow_mem_sdcRows (f : SFun) (topo : List DNode)
    (pl clock : Int) (dm : Nat → Int) (lb ub : Nat → ℚ)
    (cs : List SchedulingConstraint) (u : SNode) (hu : u ∈ f.nodes)
    (v : Nat) (hv : v ∈ f.users u.id) :
    causalRow u.id (some v) ∈ sdcRows f topo pl clock dm lb ub cs := by
  have h1 : causalRow u.id (some v) ∈ defUseRows f := by
    unfold defUseRows
    refine List.mem_flatMap.mpr ⟨u, hu, ?_⟩
    refine List.mem_append.mpr (Or.inl ?_)
    refine List.mem_flatMap.mpr ⟨v, hv, ?_⟩
    simp
  unfold sdcRows
  simp only [List.mem_append]
  exact Or.inl (Or.inl (Or.inr h1))

theorem satRow_causal (sol : SVar → ℚ) (n v : Nat)
    (h : SatRow sol (causalRow n (some v))) :
    sol (SVar.cycle n) ≤ sol (SVar.cycle v) := by
  have h2 := h.2
  unfold causalRow at h2
  unfold SatUB rowValue userVar at h2
  simp only [List.map_cons, List.map_nil, List.sum_cons, List.sum_nil] at h2
  linarith

/-- **C3.** For every data edge `u → v` of the scheduled function, if
`SDCScheduler` returns a cycle map (so the external solver produced an
`OPTIMAL` solution, which satisfies every row of the LP) then the cycle
assigned to `u` is at most the cycle assigned to `v`: the causal row
`cycle[u] − cycle[v] ≤ 0` holds for the solution, and rounding is
monotone. -/
theorem sdc_causality (f : SFun) (topo : List DNode)
    (pipelineLength clock : Int) (delayMap : Nat → Int) (lb ub : Nat → ℚ)
    (constraints : List SchedulingConstraint) (avail : Bool)
    (st : MPResultStatus) (sol : SVar → ℚ) (m : List (Nat × Int))
    (hsat : ∀ r ∈ sdcRows f topo pipelineLength clock delayMap lb ub
      constraints, SatRow sol r)
    (hok : SDCScheduler avail st f sol = .ok m)
    (u : SNode) (hu : u ∈ f.nodes) (v : Nat) (hv : v ∈ f.users u.id)
    (cu cv : Int) (hcu : m.lookup u.id = some cu)
    (hcv : m.lookup v = some cv) : cu ≤ cv := by
  have hm := sdcScheduler_ok avail st f sol m hok
  subst hm
  have hcu' : cu = round (sol (SVar.cycle u.id)) :=
    lookup_round_map f.nodes (fun x => round (sol (SVar.cycle x))) u.id cu hcu
  have hcv' : cv = round (sol (SVar.cycle v)) :=
    lookup_round_map f.nodes (fun x => round (sol (SVar.cycle x))) v cv hcv
  have hrow := hsat _ (causalRow_mem_sdcRows f topo pipelineLength clock
    delayMap lb ub constraints u hu v hv)
  have hle := satRow_causal sol u.id v hrow
  rw [hcu', hcv']
  exact round_mono_rat hle

def c3f : SFun :=
  ⟨[⟨0, .other, none, 1, []⟩, ⟨1, .other, none, 1, [0]⟩],
   fun x => if x = 0 then [1] else [], fun _ => false⟩

theorem sdc_causality_witness : (0 : Int) ≤ 0 :=
  sdc_causality c3f [⟨0, []⟩, ⟨1, [0]⟩] 1 1000 (fun _ => 0) (fun _ => 0)
    (fun _ => 0) [] true .optimal (fun _ => 0) [(0, 0), (1, 0)]
    (by
      intro r hr
      have hrows : sdcRows c3f [⟨0, []⟩, ⟨1, [0]⟩] 1 1000 (fun _ => 0)
          (fun _ => 0) (fun _ => 0) [] =
          [causalRow 0 (some 1), lifetimeRow 0 (some 1),
           ⟨some 0, some 0, [(SVar.cycle 0, 1)]⟩,
           ⟨some 0, none, [(SVar.lifetime 0, 1)]⟩,
           ⟨some 0, some 0, [(SVar.cycle 1, 1)]⟩,
           ⟨some 0, none, [(SVar.lifetime 1, 1)]⟩] := rfl
      rw [hrows] at hr
      fin_cases hr <;>
        constructor <;>
          norm_num [SatLB, SatUB, rowValue, causalRow, lifetimeRow, userVar])
    (by
      have hall : (c3f.nodes.all (fun n =>
          decide (|(fun _ : SVar => (0 : ℚ)) (SVar.cycle n.id) -
            ((round ((fun _ : SVar => (0 : ℚ)) (SVar.cycle n.id)) : Int) : ℚ)|
            ≤ 1 / 1000))) = true := by
        simp [c3f, round_zero]
      simp [SDCScheduler, ExtractResult, hall, c3f, round_zero])
    ⟨0, .other, none, 1, []⟩ (by decide) 1 (by decide) 0 0 (by decide)
    (by decide)

theorem rfslRecvRow_mem (f : SFun) (pl : Int) (n : SNode) (hn : n ∈ f.nodes)
    (hk : n.kind = .receive) :
    (⟨none, some 0, [(SVar.cycle n.id, 1)]⟩ : LinRow) ∈ rfslRows f pl := by
  unfold rfslRows
  refine List.mem_flatMap.mpr ⟨n, hn, ?_⟩
  refine List.mem_append.mpr (Or.inl ?_)
  simp [hk]

theorem rfslSendRow_mem (f : SFun) (pl : Int) (n : SNode) (hn : n ∈ f.nodes)
    (hk : n.kind = .send) :
    (⟨none, some (-((pl - 1 : Int) : ℚ)), [(SVar.cycle n.id, -1)]⟩ : LinRow) ∈
      rfslRows f pl := by
  unfold rfslRows
  refine List.mem_flatMap.mpr ⟨n, hn, ?_⟩
  refine List.mem_append.mpr (Or.inr ?_)
  simp [hk]

theorem rfslRows_mem_sdcRows (f : SFun) (topo : List DNode) (pl clock : Int)
    (dm : Nat → Int) (lb ub : Nat → ℚ) (cs : List SchedulingConstraint)
    (hc : SchedulingConstraint.recvsFirstSendsLast ∈ cs) (r : LinRow)
    (hr : r ∈ rfslRows f pl) : r ∈ sdcRows f topo pl clock dm lb ub cs := by
  unfold sdcRows
  simp only [List.mem_append]
  exact Or.inl (Or.inl (Or.inl (List.mem_flatMap.mpr
    ⟨.recvsFirstSendsLast, hc, hr⟩)))

theorem cycleBoundRow_mem_sdcRows (f : SFun) (topo : List DNode)
    (pl clock : Int) (dm : Nat → Int) (lb ub : Nat → ℚ)
    (cs : List SchedulingConstraint) (n : SNode) (hn : n ∈ f.nodes) :
    (⟨some (lb n.id), some (ub n.id), [(SVar.cycle n.id, 1)]⟩ : LinRow) ∈
      sdcRows f topo pl clock dm lb ub cs := by
  unfold sdcRows
  simp only [List.mem_append]
  refine Or.inr ?_
  unfold boundRows
  refine List.mem_flatMap.mpr ⟨n, hn, ?_⟩
  simp

theorem satRow_single (sol : SVar → ℚ) (lo hi : Option ℚ) (v : SVar) (c : ℚ)
    (h : SatRow sol ⟨lo, hi, [(v, c)]⟩) :
    SatLB lo (c * sol v) ∧ SatUB hi (c * sol v) := by
  unfold SatRow rowValue at h
  simpa using h

/-- **C4.** When a `RecvsFirstSendsLastConstraint` is among the scheduling
constraints and `SDCScheduler` returns a cycle map, every `Receive` node is
assigned cycle 0 and every `Send` node cycle `pipeline_stages − 1`.  The
RFSL rows give `cycle[recv] ≤ 0` and `cycle[send] ≥ pipeline_stages − 1`;
the opposite inequalities come from the ASAP/ALAP variable bounds
(`ScheduleBounds` is not among the source files, so its guarantees `0 ≤
lb(n)` and `ub(n) ≤ pipeline_stages − 1` are hypotheses modelled from the
spec). -/
theorem sdc_rfsl (f : SFun) (topo : List DNode) (pipelineLength clock : Int)
    (delayMap : Nat → Int) (lb ub : Nat → ℚ)
    (constraints : List SchedulingConstraint) (avail : Bool)
    (st : MPResultStatus) (sol : SVar → ℚ) (m : List (Nat × Int))
    (hrfsl : SchedulingConstraint.recvsFirstSendsLast ∈ constraints)
    (hsat : ∀ r ∈ sdcRows f topo pipelineLength clock delayMap lb ub
      constraints, SatRow sol r)
    (hok : SDCScheduler avail st f sol = .ok m)
    (hlb : ∀ x, 0 ≤ lb x) (hub : ∀ x, ub x ≤ (pipelineLength : ℚ) - 1)
    (n : SNode) (hn : n ∈ f.nodes) :
    (n.kind = .receive → m.lookup n.id = some 0) ∧
    (n.kind = .send → m.lookup n.id = some (pipelineLength - 1)) := by
  have hm := sdcScheduler_ok avail st f sol m hok
  subst hm
  have hlook := mem_lookup_round_map f.nodes
    (fun x => round (sol (SVar.cycle x))) n hn
  have hbound := satRow_single sol (some (lb n.id)) (some (ub n.id))
    (SVar.cycle n.id) 1
    (hsat _ (cycleBoundRow_mem_sdcRows f topo pipelineLength clock delayMap
      lb ub constraints n hn))
  have hb1 : lb n.id ≤ sol (SVar.cycle n.id) := by
    have := hbound.1
    unfold SatLB at this
    linarith
  have hb2 : sol (SVar.cycle n.id) ≤ ub n.id := by
    have := hbound.2
    unfold SatUB at this
    linarith
  constructor
  · intro hk
    have hrow := satRow_single sol none (some 0) (SVar.cycle n.id) 1
      (hsat _ (rfslRows_mem_sdcRows f topo pipelineLength clock delayMap lb
        ub constraints hrfsl _ (rfslRecvRow_mem f pipelineLength n hn hk)))
    have hle : sol (SVar.cycle n.id) ≤ 0 := by
      have := hrow.2
      unfold SatUB at this
      linarith
    have h0 : sol (SVar.cycle n.id) = 0 :=
      le_antisymm hle (le_trans (hlb n.id) hb1)
    rw [hlook]
    show some (round (sol (SVar.cycle n.id))) = some 0
    rw [h0, round_zero]
  · intro hk
    have hrow := satRow_single sol none
      (some (-((pipelineLength - 1 : Int) : ℚ))) (SVar.cycle n.id) (-1)
      (hsat _ (rfslRows_mem_sdcRows f topo pipelineLength clock delayMap lb
        ub constraints hrfsl _ (rfslSendRow_mem f pipelineLength n hn hk)))
    have hge : ((pipelineLength - 1 : Int) : ℚ) ≤ sol (SVar.cycle n.id) := by
      have := hrow.2
      unfold SatUB at this
      linarith
    have hcast : ((pipelineLength - 1 : Int) : ℚ) = (pipelineLength : ℚ) - 1 := by
      push_cast
      ring
    have heq : sol (SVar.cycle n.id) = ((pipelineLength - 1 : Int) : ℚ) := by
      rw [hcast]
      rw [hcast] at hge
      exact le_antisymm (le_trans hb2 (hub n.id)) hge
    rw [hlook]
    show some (round (sol (SVar.cycle n.id))) = some (pipelineLength - 1)
    rw [heq, round_intCast]

def c4f : SFun :=
  ⟨[⟨0, .receive, some "in", 16, []⟩, ⟨1, .send, some "out", 16, []⟩],
   fun _ => [], fun _ => false⟩

/-- A solution pinning the receive to 0 and the send to 1. -/
def c4sol : SVar → ℚ := fun v =>
  match v with
  | .cycle 1 => 1
  | _ => 0

theorem sdc_rfsl_witness :
    ([(0, 0), (1, 1)] : List (Nat × Int)).lookup 0 = some 0 :=
  (sdc_rfsl c4f [⟨0, []⟩, ⟨1, []⟩] 2 1000 (fun _ => 0) (fun _ => 0)
    (fun _ => 1) [.recvsFirstSendsLast] true .optimal c4sol [(0, 0), (1, 1)]
    (by decide)
    (by
      intro r hr
      have hrows : sdcRows c4f [⟨0, []⟩, ⟨1, []⟩] 2 1000 (fun _ => 0)
          (fun _ => 0) (fun _ => 1) [.recvsFirstSendsLast] =
          [⟨none, some 0, [(SVar.cycle 0, 1)]⟩,
           ⟨none, some (-((2 - 1 : Int) : ℚ)), [(SVar.cycle 1, -1)]⟩,
           ⟨some 0, some 1, [(SVar.cycle 0, 1)]⟩,
           ⟨some 0, none, [(SVar.lifetime 0, 1)]⟩,
           ⟨some 0, some 1, [(SVar.cycle 1, 1)]⟩,
           ⟨some 0, none, [(SVar.lifetime 1, 1)]⟩] := rfl
      rw [hrows] at hr
      fin_cases hr <;>
        constructor <;>
          norm_num [SatLB, SatUB, rowValue, c4sol])
    (by
      have hall : (c4f.nodes.all (fun n =>
          decide (|c4sol (SVar.cycle n.id) -
            ((round (c4sol (SVar.cycle n.id)) : Int) : ℚ)| ≤ 1 / 1000))) =
          true := by
        simp [c4f, c4sol, round_zero, round_intCast]
      simp [SDCScheduler, ExtractResult, hall, c4f, c4sol, round_zero])
    (fun x => le_refl 0) (fun x => by norm_num)
    ⟨0, .receive, some "in", 16, []⟩ (by decide)).1 rfl

/-- The states the three failure paths of `SDCScheduler` construct
(`UnavailableError`, `InternalError` on non-`OPTIMAL`, `InternalError` in
`ExtractResult`), with the last two sharing the `internal` code. -/
theorem sdc_failure_modes (f : SFun) (sol : SVar → ℚ) (st : MPResultStatus) :
    SDCScheduler false st f sol = .error solverUnavailableStatus ∧
    (st ≠ .optimal → SDCScheduler true st f sol = .error notOptimalStatus) ∧
    SDCScheduler true .optimal f sol = ExtractResult f sol ∧
    solverUnavailableStatus ≠ notOptimalStatus ∧
    solverUnavailableStatus ≠ nonIntegerStatus ∧
    notOptimalStatus ≠ nonIntegerStatus ∧
    notOptimalStatus.code = nonIntegerStatus.code := by
  refine ⟨rfl, ?_, rfl, by decide, by decide, ?_, rfl⟩
  · intro hst
    unfold SDCScheduler
    rw [if_neg (by simp), if_neg hst]
  · intro h
    have : notOptimalStatus.message = nonIntegerStatus.message := by rw [h]
    simp [notOptimalStatus, nonIntegerStatus] at this

/-- **C5 counterexample.** An infeasible LP is not surfaced as a descriptive
infeasibility naming the offending constraint class: the scheduler returns
the same fixed `InternalError` for an `INFEASIBLE` solve as for an
`UNBOUNDED` or `ABNORMAL` one — on two procs whose constraint sets differ —
and that error shares its (internal) status code with the non-integer-result
error. -/
theorem c5_counterexample :
    SDCScheduler true MPResultStatus.infeasible c4f c4sol =
      .error notOptimalStatus ∧
    SDCScheduler true MPResultStatus.unbounded c4f c4sol =
      .error notOptimalStatus ∧
    SDCScheduler true MPResultStatus.abnormal c3f (fun _ => 0) =
      .error notOptimalStatus ∧
    SDCScheduler true MPResultStatus.infeasible c3f (fun _ => 0) =
      SDCScheduler true MPResultStatus.infeasible c4f c4sol ∧
    notOptimalStatus.code = nonIntegerStatus.code ∧
    notOptimalStatus.message = "The problem does not have an optimal solution" :=
  ⟨rfl, rfl, rfl, rfl, rfl, rfl⟩

/-! ### Proc-state optimization pass (proc_state_optimization_pass.cc)

A proc is embedded as its node list (in `proc->nodes()` iteration order,
which `Proc::Accept` visits operands-first), the parallel lists of state
element types, state parameter node ids and next-state node ids, and the
token parameter's id.  `ComputeStateDependencies` follows the
`StateDependencyVisitor`: a state parameter depends only on itself, the
token parameter and every other node depend on the union of their operands'
bitmaps (`DefaultHandler`; the per-leaf refinements of `DataFlowVisitor`
live in dataflow_visitor.h, which is not among the source files — the spec
states the flattened rule used here: "every other node's bitmap is the
union of its operands' bitmaps"). -/

/-- IR types (`xls/ir/type.h`): bits, token, tuple, array. -/
inductive Ty where
  | bits (w : Nat)
  | token
  | tuple (ts : List Ty)
  | array (t : Ty) (n : Nat)

/-- `Type::GetFlatBitCount`. -/
def Ty.flatBitCount : Ty → Nat
  | .bits w => w
  | .token => 0
  | .tuple ts => (ts.attach.map (fun x => x.1.flatBitCount)).sum
  | .array t n => n * t.flatBitCount
decreasing_by
  all_goals simp_wf
  · have := List.sizeOf_lt_of_mem x.2
    omega
  · omega

/-- IR values, for literal nodes. -/
inductive Value where
  | bits (w : Nat) (v : Nat)
  | token
  | tuple (vs : List Value)
  | array (vs : List Value)

/-- Modelled from the spec: `ZeroOfType` (xls/ir/value_helpers.h, not among
the source files) — the all-zero value of a type. -/
def ZeroOfType : Ty → Value
  | .bits w => .bits w 0
  | .token => .token
  | .tuple ts => .tuple (ts.attach.map (fun x => ZeroOfType x.1))
  | .array t n => .array (List.replicate n (ZeroOfType t))
decreasing_by
  all_goals simp_wf
  · have := List.sizeOf_lt_of_mem x.2
    omega
  · omega

/-- The operation kinds the pass distinguishes. -/
inductive POp where
  | param
  | literal
  | send
  | receive
  | assertOp
  | cover
  | other
  deriving DecidableEq

/-- Modelled from the spec: `OpIsSideEffecting` (xls/ir/op.cc, not among
the source files).  Side-effecting ops are send/receive/assert/cover "and
similar"; `Op::kParam` is also side-effecting in XLS, which is why the pass
additionally tests `!node->Is<Param>()`. -/
def OpIsSideEffecting : POp → Bool
  | .param => true
  | .send => true
  | .receive => true
  | .assertOp => true
  | .cover => true
  | _ => false

/-- A node of a proc. -/
structure PNode where
  id : Nat
  op : POp
  ty : Ty
  operands : List Nat
  value : Option Value

/-- A proc: nodes plus the aligned state element lists and the token
parameter. -/
structure Proc where
  nodes : List PNode
  stateTypes : List Ty
  stateParams : List Nat
  nextState : List Nat
  tokenParam : Nat

/-- `ComputeStateDependencies`: one forward pass over the nodes; a state
parameter's bitmap is the singleton of its index, the token parameter and
all other nodes take the union of their operands' bitmaps.  `dep m i` is
bit `i` of node `m`'s flattened bitmap. -/
def ComputeStateDependencies (p : Proc) : Nat → Nat → Bool :=
  p.nodes.foldl
    (fun dep n => fun m i =>
      if m = n.id then
        if n.op = .param ∧ n.id ≠ p.tokenParam then
          decide (p.stateParams.indexOf n.id = i)
        else
          n.operands.any (fun o => dep o i)
      else dep m i)
    (fun _ _ => false)

/-- Modelled from the spec: `UnionFind` (xls/data_structures/union_find.h
is not among the source files).  The partition is kept as the map sending
each element to its class representative; `Union a b` redirects `a`'s class
to `b`'s representative; `Find` is application. -/
def ufUnion (uf : Nat → Nat) (a b : Nat) : Nat → Nat :=
  fun n => if uf n = uf a then uf b else uf n

/-- The side-effecting block of the node loop in
`RemoveUnobservableStateElements`: for a side-effecting non-parameter node,
walk the state indices it depends on; the first seeds
`observable_state_index`, the rest are unioned with the seed. -/
def seStep (p : Proc) (dep : Nat → Nat → Bool)
    (st : (Nat → Nat) × Option Nat) (n : PNode) : (Nat → Nat) × Option Nat :=
  if OpIsSideEffecting n.op = true ∧ n.op ≠ .param then
    (List.range p.stateTypes.length).foldl
      (fun st i =>
        if dep n.id i then
          match st.2 with
          | none => (st.1, some i)
          | some s => (ufUnion st.1 i s, some s)
        else st)
      st
  else st

/-- The next-state block of the node loop: for every state index `k` whose
next-state value is this node, union `k` with every index the node depends
on. -/
def nsStep (p : Proc) (dep : Nat → Nat → Bool) (uf : Nat → Nat) (n : PNode) :
    Nat → Nat :=
  ((List.range p.stateTypes.length).filter
      (fun k => p.nextState.getD k 0 = n.id)).foldl
    (fun uf k =>
      (List.range p.stateTypes.length).foldl
        (fun uf i => if dep n.id i then ufUnion uf i k else uf)
        uf)
    uf

/-- One node of the merge loop: the side-effecting block, then the
next-state block. -/
def observStep (p : Proc) (dep : Nat → Nat → Bool)
    (st : (Nat → Nat) × Option Nat) (n : PNode) : (Nat → Nat) × Option Nat :=
  let st1 := seStep p dep st n
  (nsStep p dep st1.1 n, st1.2)

/-- The union-find and seed after the merge loop over all nodes. -/
def observState (p : Proc) : (Nat → Nat) × Option Nat :=
  p.nodes.foldl (observStep p (ComputeStateDependencies p)) (id, none)

/-- The indices gathered into `to_remove` by
`RemoveUnobservableStateElements`, in the descending order of the gathering
loop: those not in the observable equivalence class (all of them when no
side-effecting node depends on any state). -/
def unobservableToRemove (p : Proc) : List Nat :=
  let st := observState p
  (List.range p.stateTypes.length).reverse.filter
    (fun i =>
      match st.2 with
      | none => true
      | some s => decide (st.1 i ≠ st.1 s))

/-- Largest node id in use plus one; `Package::next_node_id_` always
exceeds every allocated id, which is all the proofs rely on. -/
def freshId (nodes : List PNode) : Nat :=
  (nodes.map PNode.id).foldr max 0 + 1

/-- Rewriting one node's operand references from `oldId` to `newId`. -/
def substN (oldId newId : Nat) (n : PNode) : PNode :=
  { n with operands := n.operands.map (fun o => if o = oldId then newId else o) }

/-- `Node::ReplaceUsesWith`: rewrite every operand reference and every
next-state binding (an implicit use) from `oldId` to `newId`. -/
def Proc.replaceUses (p : Proc) (oldId newId : Nat) : Proc :=
  { p with
    nodes := p.nodes.map (substN oldId newId),
    nextState := p.nextState.map (fun x => if x = oldId then newId else x) }

/-- `ReplaceUsesWithNew<Literal>(ZeroOfType(ty))`: append a fresh literal
node holding the zero value of `ty`, then replace the uses. -/
def Proc.replaceUsesWithNewLiteral (p : Proc) (oldId : Nat) (ty : Ty) : Proc :=
  let lit : PNode := ⟨freshId p.nodes, .literal, ty, [], some (ZeroOfType ty)⟩
  Proc.replaceUses { p with nodes := p.nodes ++ [lit] } oldId lit.id

/-- `Proc::RemoveStateElement(i)`: drop the aligned state entries at `i`
and the (now dead) state parameter node. -/
def Proc.removeStateElement (p : Proc) (i : Nat) : Proc :=
  { p with
    nodes := p.nodes.filter (fun n => n.id ≠ p.stateParams.getD i 0),
    stateTypes := p.stateTypes.eraseIdx i,
    stateParams := p.stateParams.eraseIdx i,
    nextState := p.nextState.eraseIdx i }

/-- The zero-width indices, gathered high-to-low as in the source. -/
def zwToRemove (p : Proc) : List Nat :=
  (List.range p.stateTypes.length).reverse.filter
    (fun i => (p.stateTypes.getD i Ty.token).flatBitCount == 0)

/-- One iteration of the zero-width removal loop: replace the parameter's
uses with a zero literal of its type, then remove the state element. -/
def zwStep (q : Proc) (i : Nat) : Proc :=
  (q.replaceUsesWithNewLiteral (q.stateParams.getD i 0)
    (q.stateTypes.getD i Ty.token)).removeStateElement i

/-- `RemoveZeroWidthStateElements`. -/
def RemoveZeroWidthStateElements (p : Proc) : Proc × Bool :=
  ((zwToRemove p).foldl zwStep p, !(zwToRemove p).isEmpty)

/-- Whether the state parameter is still used (`!state_param->IsDead()`:
it has users or is a next-state value). -/
def paramUsed (q : Proc) (pid : Nat) : Bool :=
  q.nodes.any (fun n => pid ∈ n.operands) || q.nextState.any (fun x => x = pid)

/-- `RemoveUnobservableStateElements`: gather `to_remove`; replace the uses
of each to-be-removed, still-live parameter with a zero literal; then
remove the elements in the same (descending) order. -/
def RemoveUnobservableStateElements (p : Proc) : Proc × Bool :=
  let toRemove := unobservableToRemove p
  let p1 := toRemove.foldl
    (fun q i =>
      if paramUsed q (q.stateParams.getD i 0) then
        q.replaceUsesWithNewLiteral (q.stateParams.getD i 0)
          (q.stateTypes.getD i Ty.token)
      else q)
    p
  (toRemove.foldl (fun q i => q.removeStateElement i) p1, !toRemove.isEmpty)

/-- `ProcStateOptimizationPass::RunOnProcInternal`: zero-width removal,
then unobservable-state removal. -/
def RunOnProcInternal (p : Proc) : Proc × Bool :=
  let r1 := RemoveZeroWidthStateElements p
  let r2 := RemoveUnobservableStateElements r1.1
  (r2.1, r1.2 || r2.2)

/-- There is a side-effecting non-parameter node whose dependency bitmap
contains `i`. -/
def SEDep (p : Proc) (dep : Nat → Nat → Bool) (i : Nat) : Prop :=
  ∃ n ∈ p.nodes, OpIsSideEffecting n.op = true ∧ n.op ≠ .param ∧
    dep n.id i = true

/-- The next-state value of element `k` depends on state index `i`. -/
def NextDep (p : Proc) (dep : Nat → Nat → Bool) (k i : Nat) : Prop :=
  ∃ n ∈ p.nodes, k < p.stateTypes.length ∧ p.nextState.getD k 0 = n.id ∧
    dep n.id i = true

/-- The undirected edges along which `RemoveUnobservableStateElements`
unions state indices: two side-effect-dependent indices, or an index and an
element whose next-state depends on it. -/
def ObsEdge (p : Proc) (dep : Nat → Nat → Bool) (a b : Nat) : Prop :=
  (SEDep p dep a ∧ SEDep p dep b) ∨ NextDep p dep a b ∨ NextDep p dep b a

/-- The equivalence closure of a relation. -/
inductive RelGen (r : Nat → Nat → Prop) : Nat → Nat → Prop where
  | rel {a b : Nat} : r a b → RelGen r a b
  | refl (a : Nat) : RelGen r a a
  | symm {a b : Nat} : RelGen r a b → RelGen r b a
  | trans {a b c : Nat} : RelGen r a b → RelGen r b c → RelGen r a c

/-- A `Union` between related elements keeps `Find`-equality inside the
closure of the relation. -/
theorem ufUnion_sound {r : Nat → Nat → Prop} (uf : Nat → Nat) (a b : Nat)
    (hinv : ∀ x y, uf x = uf y → RelGen r x y) (hab : RelGen r a b) :
    ∀ x y, ufUnion uf a b x = ufUnion uf a b y → RelGen r x y := by
  intro x y h
  unfold ufUnion at h
  by_cases hx : uf x = uf a <;> by_cases hy : uf y = uf a
  · exact hinv x y (hx.trans hy.symm)
  · rw [if_pos hx, if_neg hy] at h
    exact ((hinv x a hx).trans hab).trans (hinv b y h)
  · rw [if_neg hx, if_pos hy] at h
    exact ((hinv x b h).trans hab.symm).trans (hinv a y hy.symm)
  · rw [if_neg hx, if_neg hy] at h
    exact hinv x y h

/-- The invariant of the merge loop: the seed (when set) is
side-effect-dependent, and `Find`-equal indices are connected by the
union edges. -/
def ObsInv (p : Proc) (dep : Nat → Nat → Bool)
    (st : (Nat → Nat) × Option Nat) : Prop :=
  (∀ s, st.2 = some s → SEDep p dep s) ∧
  (∀ x y, st.1 x = st.1 y → RelGen (ObsEdge p dep) x y)

theorem seStep_inv (p : Proc) (dep : Nat → Nat → Bool) (n : PNode)
    (hn : n ∈ p.nodes) (st : (Nat → Nat) × Option Nat)
    (h : ObsInv p dep st) : ObsInv p dep (seStep p dep st n) := by
  unfold seStep
  by_cases hc : OpIsSideEffecting n.op = true ∧ n.op ≠ .param
  · rw [if_pos hc]
    have aux : ∀ (is : List Nat) (st : (Nat → Nat) × Option Nat),
        ObsInv p dep st →
        ObsInv p dep (is.foldl
          (fun st i =>
            if dep n.id i then
              match st.2 with
              | none => (st.1, some i)
              | some s => (ufUnion st.1 i s, some s)
            else st)
          st) := by
      intro is
      induction is with
      | nil => intro st h; exact h
      | cons i rest ih =>
        intro st h
        rw [List.foldl_cons]
        apply ih
        by_cases hd : dep n.id i = true
        · rw [if_pos hd]
          cases hseed : st.2 with
          | none =>
            refine ⟨?_, h.2⟩
            intro s hs
            cases hs
            exact ⟨n, hn, hc.1, hc.2, hd⟩
          | some s =>
            refine ⟨?_, ?_⟩
            · intro s' hs'
              cases hs'
              exact h.1 s hseed
            · exact ufUnion_sound st.1 i s h.2
                (RelGen.rel (Or.inl ⟨⟨n, hn, hc.1, hc.2, hd⟩, h.1 s hseed⟩))
        · rw [if_neg hd]
          exact h
    exact aux _ st h
  · rw [if_neg hc]
    exact h

theorem nsStep_inv (p : Proc) (dep : Nat → Nat → Bool) (n : PNode)
    (hn : n ∈ p.nodes) (uf : Nat → Nat)
    (h : ∀ x y, uf x = uf y → RelGen (ObsEdge p dep) x y) :
    ∀ x y, nsStep p dep uf n x = nsStep p dep uf n y →
      RelGen (ObsEdge p dep) x y := by
  unfold nsStep
  have inner : ∀ (k : Nat), k < p.stateTypes.length →
      p.nextState.getD k 0 = n.id →
      ∀ (is : List Nat) (uf : Nat → Nat),
      (∀ x y, uf x = uf y → RelGen (ObsEdge p dep) x y) →
      (∀ x y, (is.foldl (fun uf i => if dep n.id i then ufUnion uf i k else uf)
          uf) x =
        (is.foldl (fun uf i => if dep n.id i then ufUnion uf i k else uf)
          uf) y → RelGen (ObsEdge p dep) x y) := by
    intro k hkN hkeq is
    induction is with
    | nil => intro uf h; exact h
    | cons i rest ih =>
      intro uf h
      rw [List.foldl_cons]
      apply ih
      by_cases hd : dep n.id i = true
      · rw [if_pos hd]
        exact ufUnion_sound uf i k h
          (RelGen.rel (Or.inr (Or.inr ⟨n, hn, hkN, hkeq, hd⟩)))
      · rw [if_neg hd]
        exact h
  have outer : ∀ (ks : List Nat),
      (∀ k ∈ ks, k < p.stateTypes.length ∧ p.nextState.getD k 0 = n.id) →
      ∀ (uf : Nat → Nat),
      (∀ x y, uf x = uf y → RelGen (ObsEdge p dep) x y) →
      (∀ x y, (ks.foldl
          (fun uf k =>
            (List.range p.stateTypes.length).foldl
              (fun uf i => if dep n.id i then ufUnion uf i k else uf) uf)
          uf) x =
        (ks.foldl
          (fun uf k =>
            (List.range p.stateTypes.length).foldl
              (fun uf i => if dep n.id i then ufUnion uf i k else uf) uf)
          uf) y → RelGen (ObsEdge p dep) x y) := by
    intro ks
    induction ks with
    | nil => intro _ uf h; exact h
    | cons k rest ih =>
      intro hks uf h
      rw [List.foldl_cons]
      apply ih (fun k' hk' => hks k' (List.mem_cons_of_mem k hk'))
      have hk := hks k (List.mem_cons_self k rest)
      exact inner k hk.1 hk.2 _ uf h
  refine outer _ ?_ uf h
  intro k hk
  have h1 := List.mem_filter.mp hk
  exact ⟨List.mem_range.mp h1.1, by simpa using h1.2⟩

theorem observState_inv (p : Proc) :
    ObsInv p (ComputeStateDependencies p) (observState p) := by
  unfold observState
  have aux : ∀ (ns : List PNode), (∀ n ∈ ns, n ∈ p.nodes) →
      ∀ (st : (Nat → Nat) × Option Nat), ObsInv p (ComputeStateDependencies p) st →
      ObsInv p (ComputeStateDependencies p)
        (ns.foldl (observStep p (ComputeStateDependencies p)) st) := by
    intro ns
    induction ns with
    | nil => intro _ st h; exact h
    | cons n rest ih =>
      intro hns st h
      rw [List.foldl_cons]
      apply ih (fun n' hn' => hns n' (List.mem_cons_of_mem n hn'))
      have hse := seStep_inv p (ComputeStateDependencies p) n
        (hns n (List.mem_cons_self n rest)) st h
      exact ⟨hse.1, nsStep_inv p (ComputeStateDependencies p) n
        (hns n (List.mem_cons_self n rest)) _ hse.2⟩
  apply aux p.nodes (fun _ hn => hn)
  refine ⟨fun s hs => ?_, fun x y h => ?_⟩
  · cases hs
  · have hxy : x = y := h
    rw [hxy]
    exact RelGen.refl y

/-- **C1 (amended).** Every state element index the pass retains is
connected — through the *symmetric* closure of the next-state-depends-on
edges together with the mutual linking of side-effect-dependent indices —
to an index on which some side-effecting non-parameter node depends.  (The
directed version claimed in the spec fails: see the counterexample.) -/
theorem removeUnobservable_retained_connected (p : Proc) (i : Nat)
    (hi : i < p.stateTypes.length) (hnr : i ∉ unobservableToRemove p) :
    ∃ j, SEDep p (ComputeStateDependencies p) j ∧
      RelGen (ObsEdge p (ComputeStateDependencies p)) j i := by
  unfold unobservableToRemove at hnr
  have hmem : i ∈ (List.range p.stateTypes.length).reverse :=
    List.mem_reverse.mpr (List.mem_range.mpr hi)
  have hinv := observState_inv p
  cases hs : (observState p).2 with
  | none =>
    exfalso
    apply hnr
    apply List.mem_filter.mpr ⟨hmem, ?_⟩
    simp only [hs]
  | some s =>
    have heq : (observState p).1 i = (observState p).1 s := by
      by_contra hne
      apply hnr
      apply List.mem_filter.mpr ⟨hmem, ?_⟩
      simp only [hs]
      simpa using hne
    exact ⟨s, hinv.1 s hs, (hinv.2 i s heq).symm⟩

/-- The spec's observability predicate, stated from its words: "A state
element X is observable iff some side-effecting node transitively depends
on X, or the next-state value of some observable element depends on X." -/
inductive Observable (p : Proc) (dep : Nat → Nat → Bool) : Nat → Prop where
  | direct (i : Nat) (n : PNode) (hn : n ∈ p.nodes)
      (hse : OpIsSideEffecting n.op = true) (hnp : n.op ≠ .param)
      (hdep : dep n.id i = true) : Observable p dep i
  | viaNext (i k : Nat) (hk : Observable p dep k)
      (hkN : k < p.stateTypes.length)
      (hdep : dep (p.nextState.getD k 0) i = true) : Observable p dep i

/-- The proc refuting C1 as stated: states `x` (index 0) and `y` (index 1);
a send depends on `x`; the next state of both `x` and `y` is the parameter
of `x`.  Processing the shared next-state node unions `y` with `x`, so `y`
is retained, yet no side-effecting node depends on `y` and no next-state of
an observable element depends on `y`. -/
def c1proc : Proc where
  nodes := [⟨0, .param, .token, [], none⟩,
            ⟨1, .param, .bits 8, [], none⟩,
            ⟨2, .param, .bits 8, [], none⟩,
            ⟨3, .send, .token, [0, 1], none⟩]
  stateTypes := [.bits 8, .bits 8]
  stateParams := [1, 2]
  nextState := [1, 1]
  tokenParam := 0

/-- **C1 counterexample.** In `c1proc`, state index 1 is retained by
`RemoveUnobservableStateElements` (it is not gathered into `to_remove`),
but it is not observable per the spec's definition. -/
theorem c1_counterexample :
    1 ∉ unobservableToRemove c1proc ∧
    ¬Observable c1proc (ComputeStateDependencies c1proc) 1 := by
  refine ⟨by decide, ?_⟩
  intro h
  cases h with
  | direct i n hn hse hnp hdep =>
    simp only [c1proc, List.mem_cons, List.not_mem_nil, or_false] at hn
    rcases hn with h | h | h | h <;> subst h <;>
      revert hse hnp hdep <;> decide
  | viaNext i k hk hkN hdep =>
    have hk2 : k < 2 := by simpa [c1proc] using hkN
    interval_cases k <;> revert hdep <;> decide

theorem removeUnobservable_retained_connected_witness :
    ∃ j, SEDep c1proc (ComputeStateDependencies c1proc) j ∧
      RelGen (ObsEdge c1proc (ComputeStateDependencies c1proc)) j 1 :=
  removeUnobservable_retained_connected c1proc 1 (by decide) (by decide)

theorem getD_eraseIdx_lt {α : Type} (d : α) :
    ∀ (l : List α) (i j : Nat), i < j → (l.eraseIdx j).getD i d = l.getD i d := by
  intro l
  induction l with
  | nil => intro i j _; simp [List.eraseIdx]
  | cons x xs ih =>
    intro i j hij
    match j with
    | 0 => omega
    | j' + 1 =>
      match i with
      | 0 => simp [List.eraseIdx]
      | i' + 1 =>
        show (x :: xs.eraseIdx j').getD (i' + 1) d = _
        rw [List.getD_cons_succ, List.getD_cons_succ]
        exact ih i' j' (by omega)

theorem foldl_eraseIdx_map_succ {α : Type} (x : α) :
    ∀ (is : List Nat) (xs : List α),
    (is.map Nat.succ).foldl List.eraseIdx (x :: xs) =
      x :: is.foldl List.eraseIdx xs := by
  intro is
  induction is with
  | nil => intro xs; rfl
  | cons i rest ih =>
    intro xs
    rw [List.map_cons, List.foldl_cons, List.foldl_cons]
    show (rest.map Nat.succ).foldl List.eraseIdx (x :: xs.eraseIdx i) = _
    exact ih (xs.eraseIdx i)

/-- Erasing, high-to-low, exactly the indices whose entries satisfy `Q`
leaves the entries that do not satisfy `Q`. -/
theorem foldl_eraseIdx_descFilter {α : Type} (Q : α → Bool) (d : α) :
    ∀ (l : List α),
    (((List.range l.length).reverse.filter (fun i => Q (l.getD i d))).foldl
      List.eraseIdx l) = l.filter (fun a => !Q a) := by
  intro l
  induction l with
  | nil => simp
  | cons x xs ih =>
    have hrange : (List.range (x :: xs).length).reverse =
        ((List.range xs.length).reverse.map Nat.succ) ++ [0] := by
      show (List.range (xs.length + 1)).reverse = _
      rw [List.range_succ_eq_map]
      rw [List.reverse_cons, List.map_reverse]
    rw [hrange, List.filter_append]
    have hfilt : (((List.range xs.length).reverse.map Nat.succ).filter
        (fun i => Q ((x :: xs).getD i d))) =
        ((List.range xs.length).reverse.filter
          (fun i => Q (xs.getD i d))).map Nat.succ := by
      rw [List.filter_map]
      congr 1
    rw [hfilt]
    rw [List.foldl_append]
    rw [foldl_eraseIdx_map_succ]
    rw [ih]
    by_cases hq : Q x = true
    · simp only [List.getD_cons_zero, hq, List.filter_cons]
      show List.eraseIdx (x :: xs.filter (fun a => !Q a)) 0 = _
      simp [hq]
    · have hq' : Q x = false := by simpa using hq
      simp only [List.getD_cons_zero, hq', List.filter_cons]
      simp [hq']

theorem stateTypes_foldl_zwStep :
    ∀ (is : List Nat) (q : Proc),
    ((is.foldl zwStep q).stateTypes) = is.foldl List.eraseIdx q.stateTypes := by
  intro is
  induction is with
  | nil => intro q; rfl
  | cons i rest ih =>
    intro q
    rw [List.foldl_cons, List.foldl_cons, ih]
    congr 1

theorem foldl_eraseIdx_sublist {α : Type} :
    ∀ (is : List Nat) (l : List α), (is.foldl List.eraseIdx l).Sublist l := by
  intro is
  induction is with
  | nil => intro l; exact List.Sublist.refl l
  | cons i rest ih =>
    intro l
    rw [List.foldl_cons]
    exact (ih (l.eraseIdx i)).trans (List.eraseIdx_sublist l i)

/-- The first loop of `RemoveUnobservableStateElements` (use replacement)
leaves the state types unchanged. -/
theorem stateTypes_unobs_replace :
    ∀ (is : List Nat) (q : Proc),
    ((is.foldl
      (fun q i =>
        if paramUsed q (q.stateParams.getD i 0) then
          q.replaceUsesWithNewLiteral (q.stateParams.getD i 0)
            (q.stateTypes.getD i Ty.token)
        else q)
      q).stateTypes) = q.stateTypes := by
  intro is
  induction is with
  | nil => intro q; rfl
  | cons i rest ih =>
    intro q
    rw [List.foldl_cons, ih]
    by_cases hc : paramUsed q (q.stateParams.getD i 0) = true
    · rw [if_pos hc]
      rfl
    · rw [if_neg hc]

theorem stateTypes_removeFold :
    ∀ (is : List Nat) (q : Proc),
    ((is.foldl (fun q i => q.removeStateElement i) q).stateTypes) =
      is.foldl List.eraseIdx q.stateTypes := by
  intro is
  induction is with
  | nil => intro q; rfl
  | cons i rest ih =>
    intro q
    rw [List.foldl_cons, List.foldl_cons, ih]
    rfl

theorem unobs_stateTypes (q : Proc) :
    (RemoveUnobservableStateElements q).1.stateTypes =
      (unobservableToRemove q).foldl List.eraseIdx q.stateTypes := by
  simp only [RemoveUnobservableStateElements]
  rw [stateTypes_removeFold, stateTypes_unobs_replace]

/-- After the whole pass the state types are a sublist of
`p.stateTypes.filter (flat bit count ≠ 0)`. -/
theorem runOnProc_stateTypes_sublist (p : Proc) :
    ((RunOnProcInternal p).1.stateTypes).Sublist
      (p.stateTypes.filter (fun t => !(t.flatBitCount == 0))) := by
  have h1 : (RemoveZeroWidthStateElements p).1.stateTypes =
      p.stateTypes.filter (fun t => !(t.flatBitCount == 0)) := by
    show (((zwToRemove p).foldl zwStep p).stateTypes) = _
    rw [stateTypes_foldl_zwStep]
    exact foldl_eraseIdx_descFilter (fun t => t.flatBitCount == 0) Ty.token
      p.stateTypes
  have h2 := unobs_stateTypes (RemoveZeroWidthStateElements p).1
  show ((RemoveUnobservableStateElements
    (RemoveZeroWidthStateElements p).1).1.stateTypes).Sublist _
  rw [h2, h1]
  exact foldl_eraseIdx_sublist _ _

def maxIdOf (nodes : List PNode) : Nat := (nodes.map PNode.id).foldr max 0

theorem le_foldr_max : ∀ (l : List Nat) (x : Nat), x ∈ l → x ≤ l.foldr max 0 := by
  intro l
  induction l with
  | nil => intro x hx; exact absurd hx (List.not_mem_nil x)
  | cons a rest ih =>
    intro x hx
    rcases List.mem_cons.mp hx with h | h
    · rw [h]; exact le_max_left _ _
    · exact le_trans (ih x h) (le_max_right _ _)

theorem mem_le_maxIdOf {nodes : List PNode} {x : Nat}
    (h : x ∈ nodes.map PNode.id) : x ≤ maxIdOf nodes :=
  le_foldr_max _ x h

theorem getD_mem {α : Type} (d : α) (l : List α) (i : Nat) (h : i < l.length) :
    l.getD i d ∈ l := by
  rw [List.getD_eq_getElem l d h]
  exact List.getElem_mem h

theorem nodup_mem_eraseIdx_ne {α : Type} (d : α) :
    ∀ (l : List α) (i : Nat) (x : α), l.Nodup → i < l.length →
      x ∈ l.eraseIdx i → x ≠ l.getD i d := by
  intro l
  induction l with
  | nil => intro i x _ h hm; simp [List.eraseIdx] at hm
  | cons a rest ih =>
    intro i x hnd hi hx
    match i with
    | 0 =>
      have hxr : x ∈ rest := hx
      intro he
      rw [List.getD_cons_zero] at he
      exact (List.nodup_cons.mp hnd).1 (he ▸ hxr)
    | i' + 1 =>
      have hx' : x ∈ a :: rest.eraseIdx i' := hx
      have hi' : i' < rest.length := by
        have : i' + 1 < rest.length + 1 := hi
        omega
      rw [List.getD_cons_succ]
      rcases List.mem_cons.mp hx' with h | h
      · intro he
        have hmem : rest.getD i' d ∈ rest := getD_mem d rest i' hi'
        rw [← he] at hmem
        rw [h] at hmem
        exact (List.nodup_cons.mp hnd).1 hmem
      · exact ih i' x (List.nodup_cons.mp hnd).2 hi' h

/-- The zero literal node a zero-width removal step creates. -/
def zwLit (q : Proc) (i : Nat) : PNode :=
  ⟨freshId q.nodes, .literal, q.stateTypes.getD i Ty.token, [],
   some (ZeroOfType (q.stateTypes.getD i Ty.token))⟩

theorem zwStep_nodes_eq (q : Proc) (i : Nat) :
    (zwStep q i).nodes =
      ((q.nodes ++ [zwLit q i]).map
        (substN (q.stateParams.getD i 0) (freshId q.nodes))).filter
        (fun n => n.id ≠ q.stateParams.getD i 0) := rfl

theorem zwStep_nextState_eq (q : Proc) (i : Nat) :
    (zwStep q i).nextState =
      (q.nextState.map
        (fun x => if x = q.stateParams.getD i 0 then freshId q.nodes else x)).eraseIdx
        i := rfl

theorem zwStep_stateParams_eq (q : Proc) (i : Nat) :
    (zwStep q i).stateParams = q.stateParams.eraseIdx i := rfl

theorem zwStep_stateTypes_eq (q : Proc) (i : Nat) :
    (zwStep q i).stateTypes = q.stateTypes.eraseIdx i := rfl

theorem substN_id (a b : Nat) (m : PNode) : (substN a b m).id = m.id := rfl

theorem substN_lit (a : Nat) (q : Proc) (i : Nat) :
    substN a (freshId q.nodes) (zwLit q i) = zwLit q i := rfl

theorem not_mem_map_subst {a b x : Nat} {l : List Nat} (hxb : x ≠ b)
    (h : x = a ∨ x ∉ l) :
    x ∉ l.map (fun o => if o = a then b else o) := by
  intro hx
  rcases List.mem_map.mp hx with ⟨o, ho, heq⟩
  by_cases hoa : o = a
  · rw [if_pos hoa] at heq
    exact hxb heq.symm
  · rw [if_neg hoa] at heq
    rcases h with h | h
    · exact hoa (heq ▸ h ▸ rfl)
    · exact h (heq ▸ ho)

theorem not_mem_substN {a b x : Nat} {m : PNode} (hxb : x ≠ b)
    (h : x = a ∨ x ∉ m.operands) : x ∉ (substN a b m).operands :=
  not_mem_map_subst hxb h

/-- A removed (parameter id, element type) pair is gone from the proc: the
node is deleted, nothing references it (operands or next-state), its id is
below the bound `M`, and a zero literal of its type (with a fresh id above
`M`) is present. -/
def RGone (q : Proc) (M : Nat) (r : Nat × Ty) : Prop :=
  r.1 ∉ q.nodes.map PNode.id ∧
  (∀ n ∈ q.nodes, r.1 ∉ n.operands) ∧
  r.1 ∉ q.nextState ∧
  r.1 ≤ M ∧
  ∃ lit ∈ q.nodes, lit.op = .literal ∧
    lit.value = some (ZeroOfType r.2) ∧ M < lit.id

theorem freshId_gt {q : Proc} {M : Nat} (hM : M ≤ maxIdOf q.nodes) :
    M < freshId q.nodes := by
  unfold freshId
  unfold maxIdOf at hM
  omega

theorem zwStep_RGone_old (q : Proc) (i : Nat) (M : Nat) (r : Nat × Ty)
    (hpidM : q.stateParams.getD i 0 ≤ M) (hM : M ≤ maxIdOf q.nodes)
    (hr : RGone q M r) : RGone (zwStep q i) M r := by
  obtain ⟨hids, hops, hns, hbound, lit, hlit, hlop, hlval, hlgt⟩ := hr
  have hFgtM : M < freshId q.nodes := freshId_gt hM
  have hrF : r.1 ≠ freshId q.nodes := by omega
  refine ⟨?_, ?_, ?_, hbound, ?_⟩
  · intro hmem
    rcases List.mem_map.mp hmem with ⟨n, hn, hid⟩
    rw [zwStep_nodes_eq] at hn
    rcases List.mem_map.mp (List.mem_filter.mp hn).1 with ⟨m, hm, heq⟩
    rcases List.mem_append.mp hm with h | h
    · apply hids
      refine List.mem_map.mpr ⟨m, h, ?_⟩
      rw [← hid, ← heq, substN_id]
    · have hmz : m = zwLit q i := List.mem_singleton.mp h
      apply hrF
      rw [← hid, ← heq, substN_id, hmz]
      rfl
  · intro n hn
    rw [zwStep_nodes_eq] at hn
    rcases List.mem_map.mp (List.mem_filter.mp hn).1 with ⟨m, hm, heq⟩
    rw [← heq]
    apply not_mem_substN hrF
    right
    rcases List.mem_append.mp hm with h | h
    · exact hops m h
    · have hmz : m = zwLit q i := List.mem_singleton.mp h
      rw [hmz]
      exact List.not_mem_nil r.1
  · rw [zwStep_nextState_eq]
    intro hmem
    exact not_mem_map_subst hrF (Or.inr hns)
      ((List.eraseIdx_sublist _ i).subset hmem)
  · refine ⟨substN (q.stateParams.getD i 0) (freshId q.nodes) lit, ?_, hlop,
      hlval, ?_⟩
    · rw [zwStep_nodes_eq]
      refine List.mem_filter.mpr ⟨List.mem_map.mpr
        ⟨lit, List.mem_append.mpr (Or.inl hlit), rfl⟩, ?_⟩
      rw [substN_id]
      simp only [decide_eq_true_eq]
      omega
    · rw [substN_id]
      exact hlgt

theorem zwStep_RGone_new (q : Proc) (i : Nat) (M : Nat)
    (hi : i < q.stateParams.length)
    (hspB : ∀ x ∈ q.stateParams, x ≤ M) (hM : M ≤ maxIdOf q.nodes) :
    RGone (zwStep q i) M
      (q.stateParams.getD i 0, q.stateTypes.getD i Ty.token) := by
  have hpidmem : q.stateParams.getD i 0 ∈ q.stateParams :=
    getD_mem 0 q.stateParams i hi
  have hpidM : q.stateParams.getD i 0 ≤ M := hspB _ hpidmem
  have hFgtM : M < freshId q.nodes := freshId_gt hM
  have hpidF : q.stateParams.getD i 0 ≠ freshId q.nodes := by omega
  refine ⟨?_, ?_, ?_, hpidM, ?_⟩
  · intro hmem
    rcases List.mem_map.mp hmem with ⟨n, hn, hid⟩
    rw [zwStep_nodes_eq] at hn
    have h2 := (List.mem_filter.mp hn).2
    simp only [decide_eq_true_eq] at h2
    exact h2 hid
  · intro n hn
    rw [zwStep_nodes_eq] at hn
    rcases List.mem_map.mp (List.mem_filter.mp hn).1 with ⟨m, _, heq⟩
    rw [← heq]
    exact not_mem_substN hpidF (Or.inl rfl)
  · rw [zwStep_nextState_eq]
    intro hmem
    exact not_mem_map_subst hpidF (Or.inl rfl)
      ((List.eraseIdx_sublist _ i).subset hmem)
  · refine ⟨zwLit q i, ?_, rfl, rfl, hFgtM⟩
    rw [zwStep_nodes_eq]
    refine List.mem_filter.mpr ⟨List.mem_map.mpr
      ⟨zwLit q i, List.mem_append.mpr (Or.inr (List.mem_singleton.mpr rfl)),
       (substN_lit (q.stateParams.getD i 0) q i).symm⟩, ?_⟩
    simp only [decide_eq_true_eq]
    show freshId q.nodes ≠ q.stateParams.getD i 0
    omega

theorem zwStep_spSub (q : Proc) (i : Nat)
    (hi : i < q.stateParams.length) (hnd : q.stateParams.Nodup)
    (hsub : ∀ x ∈ q.stateParams, x ∈ q.nodes.map PNode.id) :
    ∀ x ∈ (zwStep q i).stateParams, x ∈ (zwStep q i).nodes.map PNode.id := by
  intro x hx
  rw [zwStep_stateParams_eq] at hx
  have hxq : x ∈ q.stateParams := (List.eraseIdx_sublist _ i).subset hx
  have hxne : x ≠ q.stateParams.getD i 0 :=
    nodup_mem_eraseIdx_ne 0 q.stateParams i x hnd hi hx
  rcases List.mem_map.mp (hsub x hxq) with ⟨m, hm, hid⟩
  refine List.mem_map.mpr
    ⟨substN (q.stateParams.getD i 0) (freshId q.nodes) m, ?_, ?_⟩
  · rw [zwStep_nodes_eq]
    refine List.mem_filter.mpr ⟨List.mem_map.mpr
      ⟨m, List.mem_append.mpr (Or.inl hm), rfl⟩, ?_⟩
    rw [substN_id]
    simp only [decide_eq_true_eq]
    rw [hid]
    exact hxne
  · rw [substN_id]
    exact hid

theorem zwStep_maxId (q : Proc) (i : Nat) (M : Nat)
    (hi : i < q.stateParams.length)
    (hspB : ∀ x ∈ q.stateParams, x ≤ M) (hM : M ≤ maxIdOf q.nodes) :
    M ≤ maxIdOf (zwStep q i).nodes := by
  have hpidM : q.stateParams.getD i 0 ≤ M :=
    hspB _ (getD_mem 0 q.stateParams i hi)
  have hFgtM : M < freshId q.nodes := freshId_gt hM
  have hFmem : freshId q.nodes ∈ (zwStep q i).nodes.map PNode.id := by
    refine List.mem_map.mpr ⟨zwLit q i, ?_, rfl⟩
    rw [zwStep_nodes_eq]
    refine List.mem_filter.mpr ⟨List.mem_map.mpr
      ⟨zwLit q i, List.mem_append.mpr (Or.inr (List.mem_singleton.mpr rfl)),
       (substN_lit (q.stateParams.getD i 0) q i).symm⟩, ?_⟩
    simp only [decide_eq_true_eq]
    show freshId q.nodes ≠ q.stateParams.getD i 0
    omega
  have := mem_le_maxIdOf hFmem
  omega

/-- The invariant run of the zero-width removal fold: previously removed
pairs stay gone, and every index of the (descending) worklist ends up
gone — its uses replaced by a fresh zero literal of its type. -/
theorem zwFold_RGone (M : Nat) :
    ∀ (is : List Nat) (q : Proc) (R : List (Nat × Ty)),
    is.Pairwise (fun a b => b < a) →
    (∀ j ∈ is, j < q.stateParams.length) →
    q.stateParams.length = q.stateTypes.length →
    q.stateParams.Nodup →
    (∀ x ∈ q.stateParams, x ∈ q.nodes.map PNode.id) →
    (∀ x ∈ q.stateParams, x ≤ M) →
    M ≤ maxIdOf q.nodes →
    (∀ r ∈ R, RGone q M r) →
    (∀ r ∈ R, RGone (is.foldl zwStep q) M r) ∧
    (∀ j ∈ is, RGone (is.foldl zwStep q) M
      (q.stateParams.getD j 0, q.stateTypes.getD j Ty.token)) := by
  intro is
  induction is with
  | nil =>
    intro q R _ _ _ _ _ _ _ hR
    exact ⟨hR, fun j hj => absurd hj (List.not_mem_nil j)⟩
  | cons i rest ih =>
    intro q R hdesc hbound hlen hnd hsub hspB hM hR
    rw [List.foldl_cons]
    have hi : i < q.stateParams.length := hbound i (List.mem_cons_self i rest)
    have hit : i < q.stateTypes.length := hlen ▸ hi
    have hrest_lt : ∀ j ∈ rest, j < i := (List.pairwise_cons.mp hdesc).1
    have hnew := zwStep_RGone_new q i M hi hspB hM
    have hpidM : q.stateParams.getD i 0 ≤ M :=
      hspB _ (getD_mem 0 q.stateParams i hi)
    have hold : ∀ r ∈ R, RGone (zwStep q i) M r :=
      fun r hr => zwStep_RGone_old q i M r hpidM hM (hR r hr)
    have hlen1 : (zwStep q i).stateParams.length =
        (zwStep q i).stateTypes.length := by
      rw [zwStep_stateParams_eq, zwStep_stateTypes_eq,
        List.length_eraseIdx_of_lt hi, List.length_eraseIdx_of_lt hit, hlen]
    have hbound1 : ∀ j ∈ rest, j < (zwStep q i).stateParams.length := by
      intro j hj
      rw [zwStep_stateParams_eq, List.length_eraseIdx_of_lt hi]
      have := hrest_lt j hj
      omega
    have hnd1 : (zwStep q i).stateParams.Nodup := by
      rw [zwStep_stateParams_eq]
      exact (List.eraseIdx_sublist _ i).nodup hnd
    have hsub1 := zwStep_spSub q i hi hnd hsub
    have hspB1 : ∀ x ∈ (zwStep q i).stateParams, x ≤ M := by
      intro x hx
      rw [zwStep_stateParams_eq] at hx
      exact hspB x ((List.eraseIdx_sublist _ i).subset hx)
    have hM1 := zwStep_maxId q i M hi hspB hM
    obtain ⟨ihold, ihnew⟩ := ih (zwStep q i)
      ((q.stateParams.getD i 0, q.stateTypes.getD i Ty.token) :: R)
      (List.Pairwise.sublist (List.sublist_cons_self i rest) hdesc)
      hbound1 hlen1 hnd1 hsub1 hspB1 hM1
      (by
        intro r hr
        rcases List.mem_cons.mp hr with h | h
        · rw [h]; exact hnew
        · exact hold r h)
    constructor
    · exact fun r hr => ihold r (List.mem_cons_of_mem _ hr)
    · intro j hj
      rcases List.mem_cons.mp hj with h | hj'
      · rw [h]
        exact ihold _ (List.mem_cons_self _ _)
      · have hji : j < i := hrest_lt j hj'
        have := ihnew j hj'
        rw [zwStep_stateParams_eq, zwStep_stateTypes_eq,
          getD_eraseIdx_lt 0 q.stateParams j i hji,
          getD_eraseIdx_lt Ty.token q.stateTypes j i hji] at this
        exact this

/-- **C6.** After the proc-state optimization pass, every remaining state
element has flat bit count > 0; the zero-width indices are gathered (and
removed) in descending order; and each removed zero-width state parameter
is gone from the resulting proc — no node, operand or next-state binding
references it — with a zero-valued literal of its type added in its
place. -/
theorem proc_state_zero_width (p : Proc)
    (hlen : p.stateParams.length = p.stateTypes.length)
    (hnd : p.stateParams.Nodup)
    (hsub : ∀ x ∈ p.stateParams, x ∈ p.nodes.map PNode.id) :
    (∀ t ∈ (RunOnProcInternal p).1.stateTypes, 0 < t.flatBitCount) ∧
    (zwToRemove p).Pairwise (fun a b => b < a) ∧
    (∀ j ∈ zwToRemove p,
      p.stateParams.getD j 0 ∉
        (RemoveZeroWidthStateElements p).1.nodes.map PNode.id ∧
      (∀ n ∈ (RemoveZeroWidthStateElements p).1.nodes,
        p.stateParams.getD j 0 ∉ n.operands) ∧
      p.stateParams.getD j 0 ∉ (RemoveZeroWidthStateElements p).1.nextState ∧
      ∃ lit ∈ (RemoveZeroWidthStateElements p).1.nodes,
        lit.op = .literal ∧
        lit.value = some (ZeroOfType (p.stateTypes.getD j Ty.token))) := by
  have hdesc : (zwToRemove p).Pairwise (fun a b => b < a) := by
    unfold zwToRemove
    apply List.Pairwise.filter
    rw [List.pairwise_reverse]
    exact List.pairwise_lt_range p.stateTypes.length
  refine ⟨?_, hdesc, ?_⟩
  · intro t ht
    have hmem := (runOnProc_stateTypes_sublist p).subset ht
    have h2 := List.mem_filter.mp hmem
    have : t.flatBitCount ≠ 0 := by simpa using h2.2
    omega
  · intro j hj
    have hboundj : ∀ j' ∈ zwToRemove p, j' < p.stateParams.length := by
      intro j' hj'
      have h1 := (List.mem_filter.mp hj').1
      have h2 := List.mem_range.mp (List.mem_reverse.mp h1)
      omega
    have hspB : ∀ x ∈ p.stateParams, x ≤ maxIdOf p.nodes :=
      fun x hx => mem_le_maxIdOf (hsub x hx)
    obtain ⟨_, hnew⟩ := zwFold_RGone (maxIdOf p.nodes) (zwToRemove p) p []
      hdesc hboundj hlen hnd hsub hspB (le_refl _)
      (fun r hr => absurd hr (List.not_mem_nil r))
    obtain ⟨h1, h2, h3, _, lit, hl1, hl2, hl3, _⟩ := hnew j hj
    exact ⟨h1, h2, h3, lit, hl1, hl2, hl3⟩

/-- A proc with a zero-width state element (index 0) and an 8-bit one
(index 1), both read by a send. -/
def c6proc : Proc where
  nodes := [⟨0, .param, .token, [], none⟩,
            ⟨1, .param, .bits 0, [], none⟩,
            ⟨2, .param, .bits 8, [], none⟩,
            ⟨3, .send, .token, [0, 1, 2], none⟩]
  stateTypes := [.bits 0, .bits 8]
  stateParams := [1, 2]
  nextState := [1, 2]
  tokenParam := 0

theorem proc_state_zero_width_witness :
    (zwToRemove c6proc).Pairwise (fun a b => b < a) :=
  (proc_state_zero_width c6proc rfl (by decide) (by decide)).2.1

end XLS
